import Mathlib

/-!
# libIVC channel core (`libIVC/src/core.c`)

A shallow embedding of the inter-VM channel core: the grant-reference parser
(`num_grefs`, `parse_grefs`), the shrink operation (`resize_channel_core`), the
framing helpers (`pull_next_size`, `skip_over_size`), the free-space functions, the
blocking copy loops (`internal_read`, `internal_write`) and the rendezvous
(`bind_memory_and_port`) over the shared directory as explicit state.

Conventions of the embedding.

* Target: LP64, little-endian (x86-64 Xen guest). `int` and `unsigned int` are 32 bits,
  `unsigned long`, `size_t` and pointers are 64 bits. Unsigned arithmetic wraps; a
  conversion to `int` keeps the low 32 bits in two's complement.
* `ivc_private.h` is not among the sources. The size of the control block is a
  parameter (`cb`); the two counters and `ring_size` are taken to be `unsigned int`.
* A function that takes `struct channel_core *chan` becomes a function from the
  channel state to an `Outcome` carrying the return value and the next state.
* The model is sequential: no peer runs while a call is in progress. A busy-wait
  loop whose condition holds on entry therefore never ends; this is `Outcome.spin`.
-/

namespace IVC

/-! ## Machine integers -/

/-- Number of values of a C `unsigned int`. -/
def UINT_MOD : Nat := 2 ^ 32

/-- Number of values of a C `unsigned long` (also `size_t`). -/
def ULONG_MOD : Nat := 2 ^ 64

/-- Largest size of a C object (`PTRDIFF_MAX`). -/
def PTRDIFF_MAX : Nat := 2 ^ 63 - 1

/-- Conversion of an integer value to C `int`: the low 32 bits, two's complement. -/
def to_int (z : Int) : Int := (z + 2 ^ 31) % 2 ^ 32 - 2 ^ 31

/-- Conversion of an integer value to C `unsigned int`. -/
def to_uint (z : Int) : Nat := (z % 2 ^ 32).toNat

/-- Conversion of an integer value to C `unsigned long` / `size_t`. -/
def to_ulong (z : Int) : Nat := (z % 2 ^ 64).toNat

/-- Result of running a C function of the channel core. -/
inductive Outcome (α : Type) where
  /-- The call returns. -/
  | ret (a : α)
  /-- The call busy-waits forever. -/
  | spin
  /-- The call traps: division by zero, a `memcpy` longer than any object, or a store
  outside the memory mapped for the channel. -/
  | fault
  /-- The evaluation ran out of loop iterations. -/
  | fuel

/-- Sequencing: what follows runs on the value a call returns; a call that waits, traps
or runs out of iterations ends the run with that outcome. -/
def Outcome.and_then {α β : Type} (o : Outcome α) (k : α → Outcome β) : Outcome β :=
  match o with
  | .ret a => k a
  | .spin => .spin
  | .fault => .fault
  | .fuel => .fuel

/-! ## Channel state -/

/-- The `struct channel_core` together with the memory its pointers reach.
`mem` and `block` are addresses. The memory mapped for the channel is the
`ring_size + sizeof(ivc_shared_page)` bytes from `mem` on, as `bind_memory_and_port`
sets it up: the ring and, right behind it, the control block. `data o` is the byte stored
at address `mem + o`, for the offsets that the control block does not cover; the content
of the control block is held apart, as the two fields `bytes_consumed` and
`bytes_produced` of `*block`. -/
structure channel_core where
  mem : Nat
  ring_size : Nat
  block : Nat
  bytes_consumed : Nat
  bytes_produced : Nat
  data : Nat → Nat

/-- Load of an `unsigned char` at offset `o` of the mapping. -/
def load_byte (chan : channel_core) (o : Nat) : Nat := chan.data o % 256

/-! ## `resize_channel_core` -/

/-- The value that `resize_channel_core` stores in `chan->ring_size`:
`new - sizeof(ivc_shared_page)`, computed in `size_t` and converted to `unsigned int`. -/
def resize_ring_size (cb new : Nat) : Nat :=
  to_uint (to_ulong ((new : Int) - (cb : Int)))

/-- The C function `int resize_channel_core(struct channel_core *chan, unsigned int new, char **mem)`.
`cb` is `sizeof(ivc_shared_page)`; `mem_out` is the value of `*mem` before the call.
The result is the return value, the channel and the value of `*mem` after the call.
The two stores of 0 go through the repositioned `chan->block`: the call traps when that
block does not lie in the `ring_size + cb` bytes mapped from `chan->mem` on. The stores
are the two counters of the result; `data` stays as it was, so that after the call it
describes the mapping outside the old and the new position of the control block. -/
def resize_channel_core (cb : Nat) (chan : channel_core) (new : Nat) (mem_out : Nat) :
    Outcome (Int × channel_core × Nat) :=
  -- int size = chan->ring_size + sizeof(ivc_shared_page);
  let size : Int := to_int ((chan.ring_size + cb : Nat) : Int)
  if new > chan.ring_size then
    .ret (0, chan, mem_out)
  else
    -- *mem = chan->mem + new;
    let mem_out1 := chan.mem + new
    -- chan->ring_size = new - sizeof(ivc_shared_page);
    let ring_size1 := resize_ring_size cb new
    -- chan->block = (ivc_shared_page*)(chan->mem + chan->ring_size);
    let block1 := chan.mem + ring_size1
    -- chan->block->bytes_consumed = 0; chan->block->bytes_produced = 0;
    if block1 + cb > chan.mem + (chan.ring_size + cb) then .fault
    else
      -- return (size - new);   (unsigned int arithmetic, converted to int)
      .ret (to_int (to_uint (size - (new : Int))),
            { chan with ring_size := ring_size1, block := block1,
                        bytes_consumed := 0, bytes_produced := 0 },
            mem_out1)

/-! ## Framing helpers -/

/-- The function `ntohl` on a little-endian host: byte swap of the low 32 bits. -/
def ntohl (x : Nat) : Nat :=
  let y := x % 2 ^ 32
  (y % 256) * 2 ^ 24 + (y / 2 ^ 8 % 256) * 2 ^ 16 + (y / 2 ^ 16 % 256) * 2 ^ 8 + y / 2 ^ 24 % 256

/-- The C function `int pull_next_size(struct channel_core *chan)`. -/
def pull_next_size (chan : channel_core) : Outcome (Int × channel_core) :=
  let rsize := chan.ring_size
  -- unsigned int consumed = chan->block->bytes_consumed;
  let consumed := chan.bytes_consumed % UINT_MOD
  -- while((chan->block->bytes_consumed + 4) > chan->block->bytes_produced) {}
  if (chan.bytes_consumed + 4) % UINT_MOD > chan.bytes_produced then .spin
  else if rsize = 0 then .fault
  else
    let psize0 := load_byte chan ((consumed + 0) % UINT_MOD % rsize)
    let psize1 := load_byte chan ((consumed + 1) % UINT_MOD % rsize)
    let psize2 := load_byte chan ((consumed + 2) % UINT_MOD % rsize)
    let psize3 := load_byte chan ((consumed + 3) % UINT_MOD % rsize)
    -- the four low-address bytes of the little-endian `unsigned long size`
    let size := psize0 + psize1 * 2 ^ 8 + psize2 * 2 ^ 16 + psize3 * 2 ^ 24
    .ret (to_int (ntohl size), chan)

/-- The C function `void skip_over_size(struct channel_core *chan)`. -/
def skip_over_size (chan : channel_core) : channel_core :=
  { chan with bytes_consumed := (chan.bytes_consumed + 4) % UINT_MOD }

/-! ## Free space -/

/-- The C function `chan_free_write_space(ring_size, prod, cons)`, in `unsigned long` arithmetic. -/
def chan_free_write_space (ring_size prod cons : Nat) : Nat :=
  if prod ≥ cons then
    to_ulong ((ring_size : Int) - ((prod : Int) - (cons : Int)) - 1)
  else
    to_ulong ((cons : Int) - (prod : Int) - 1)

/-- The C function `chan_free_read_space(ring_size, prod, cons)`, in `unsigned long` arithmetic. -/
def chan_free_read_space (ring_size prod cons : Nat) : Nat :=
  to_ulong ((ring_size : Int) - (chan_free_write_space ring_size prod cons : Int) - 1)

/-! ## Blocking copy loops -/

/-- The call `memcpy(dst + doff, src + soff, n)` on byte memories indexed by offset. -/
def memcpy (dst : Nat → Nat) (doff : Nat) (src : Nat → Nat) (soff : Nat) (n : Nat) : Nat → Nat :=
  fun i => if doff ≤ i ∧ i < doff + n then src (soff + (i - doff)) else dst i

/-- One pass through the body of the `while(size > 0)` loop of `internal_read`, up to
the update of `bytes_consumed`: the amount copied (`read_amt`), the channel and the
caller's memory afterwards. `buflen` is the `ring_size` read on entry, `buffer` the
caller's memory by offset from the pointer passed in, `pos` how far the local `buffer`
pointer has advanced, `size` the number of bytes still asked for. The first assignment
to `readable_space` (from `chan_free_read_space`) is overwritten before it is used and
has no effect. -/
def internal_read_step (buflen : Nat) (chan : channel_core) (buffer : Nat → Nat) (pos : Nat)
    (size : Int) : Outcome (Int × channel_core × (Nat → Nat)) :=
  -- *(unsigned long*)buffer = 0;
  let buffer0 := memcpy buffer pos (fun _ => 0) 0 8
  -- do { prod = ...; cons = ...; } while(prod == cons);
  let prod := chan.bytes_produced
  let cons := chan.bytes_consumed
  if prod = cons then .spin
  else
    -- readable_space = prod - cons;   (unsigned long, stored in an int)
    let readable_space : Int := to_int (to_ulong ((prod : Int) - (cons : Int)))
    -- read_amt = (readable_space > size) ? size : readable_space;
    let read_amt : Int := if readable_space > size then size else readable_space
    -- if(cons + read_amt > buflen)   (unsigned long comparison)
    if to_ulong ((cons : Int) + read_amt) > buflen then
      let first : Int := to_int (to_ulong ((buflen : Int) - (cons : Int)))
      let second : Int := to_int (read_amt - first)
      if to_ulong first > PTRDIFF_MAX ∨ to_ulong second > PTRDIFF_MAX then .fault
      else
        -- memcpy(buffer, start_cpy, first); memcpy(buffer+first, chan->mem, second);
        let buffer1 := memcpy buffer0 pos chan.data cons (to_ulong first)
        let buffer2 := memcpy buffer1 (to_ulong ((pos : Int) + first)) chan.data 0
          (to_ulong second)
        -- chan->block->bytes_consumed = second;
        .ret (read_amt, { chan with bytes_consumed := to_uint second }, buffer2)
    else
      if to_ulong read_amt > PTRDIFF_MAX then .fault
      else
        -- memcpy(buffer, start_cpy, read_amt);
        let buffer1 := memcpy buffer0 pos chan.data cons (to_ulong read_amt)
        -- chan->block->bytes_consumed += read_amt;
        .ret (read_amt, { chan with bytes_consumed := to_uint ((cons : Int) + read_amt) },
              buffer1)

/-- The `while(size > 0)` loop of `internal_read`, at most `fuel` iterations: each
iteration is one `internal_read_step` (giving `read_amt`, the channel and the caller's
memory), followed by `size -= read_amt; buffer += read_amt; res += read_amt;`. -/
def internal_read_loop (buflen : Nat) :
    Nat → channel_core → (Nat → Nat) → Nat → Int → Int →
      Outcome (Int × channel_core × (Nat → Nat))
  | 0, _, _, _, _, _ => .fuel
  | fuel + 1, chan, buffer, pos, size, res =>
    if size > 0 then
      (internal_read_step buflen chan buffer pos size).and_then (fun r =>
        internal_read_loop buflen fuel r.2.1 r.2.2 (to_ulong ((pos : Int) + r.1))
          (to_int (size - r.1)) (to_int (res + r.1)))
    else .ret (res, chan, buffer)

/-- The C function `int internal_read(struct channel_core *chan, void *buffer, int size)`,
with a bound `fuel` on the number of loop iterations. Returns `res`, the channel and the
caller's memory. -/
def internal_read (fuel : Nat) (chan : channel_core) (buffer : Nat → Nat) (size : Int) :
    Outcome (Int × channel_core × (Nat → Nat)) :=
  internal_read_loop chan.ring_size fuel chan buffer 0 size 0

/-- One pass through the body of the `while(size > 0)` loop of `internal_write`, up to
the update of `bytes_produced`: the amount copied (`write_amt`) and the channel
afterwards. `buflen` is the `ring_size` read on entry, `buffer` the caller's memory by
offset from the pointer passed in, `pos` how far the local `buffer` pointer has
advanced, `size` the number of bytes still to write. -/
def internal_write_step (buflen : Nat) (chan : channel_core) (buffer : Nat → Nat) (pos : Nat)
    (size : Int) : Outcome (Int × channel_core) :=
  -- do { prod = ...; cons = ...; free_space = chan_free_write_space(...); }
  -- while(free_space == 0);
  let prod := chan.bytes_produced
  let cons := chan.bytes_consumed
  let free_space : Int := to_int (chan_free_write_space buflen prod cons)
  if free_space = 0 then .spin
  else
    -- write_amt = (free_space > size) ? size : free_space;
    let write_amt : Int := if free_space > size then size else free_space
    -- if(prod + write_amt > buflen)   (unsigned long comparison)
    if to_ulong ((prod : Int) + write_amt) > buflen then
      let first : Int := to_int (to_ulong ((buflen : Int) - (prod : Int)))
      let second : Int := to_int (write_amt - first)
      if to_ulong first > PTRDIFF_MAX ∨ to_ulong second > PTRDIFF_MAX then .fault
      else
        -- memcpy(start_cpy, buffer, first); memcpy(chan->mem, buffer+first, second);
        let data1 := memcpy chan.data prod buffer pos (to_ulong first)
        let data2 := memcpy data1 0 buffer (to_ulong ((pos : Int) + first)) (to_ulong second)
        -- chan->block->bytes_produced = second;
        .ret (write_amt, { chan with data := data2, bytes_produced := to_uint second })
    else
      if to_ulong write_amt > PTRDIFF_MAX then .fault
      else
        -- memcpy(start_cpy, buffer, write_amt);
        let data1 := memcpy chan.data prod buffer pos (to_ulong write_amt)
        -- chan->block->bytes_produced += write_amt;
        .ret (write_amt, { chan with data := data1,
                                     bytes_produced := to_uint ((prod : Int) + write_amt) })

/-- The `while(size > 0)` loop of `internal_write`, at most `fuel` iterations: each
iteration is one `internal_write_step` (giving `write_amt` and the channel), followed by
`size -= write_amt; buffer += write_amt; res += write_amt;`. -/
def internal_write_loop (buflen : Nat) :
    Nat → channel_core → (Nat → Nat) → Nat → Int → Int → Outcome (Int × channel_core)
  | 0, _, _, _, _, _ => .fuel
  | fuel + 1, chan, buffer, pos, size, res =>
    if size > 0 then
      (internal_write_step buflen chan buffer pos size).and_then (fun r =>
        internal_write_loop buflen fuel r.2 buffer (to_ulong ((pos : Int) + r.1))
          (to_int (size - r.1)) (to_int (res + r.1)))
    else .ret (res, chan)

/-- The C function `int internal_write(struct channel_core *chan, void *buffer, int size)`,
with a bound `fuel` on the number of loop iterations. Returns `res` and the channel. -/
def internal_write (fuel : Nat) (chan : channel_core) (buffer : Nat → Nat) (size : Int) :
    Outcome (Int × channel_core) :=
  internal_write_loop chan.ring_size fuel chan buffer 0 size 0

/-! ## Sequences of writes and reads -/

/-- One call on the channel: write the given bytes, or read a number of bytes. -/
inductive ring_op where
  | write (bytes : List Nat)
  | read (n : Nat)

/-- The caller's buffer holding the bytes `bs` from offset 0 (zero elsewhere). -/
def buffer_of (bs : List Nat) : Nat → Nat := fun i => bs.getD i 0

/-- The first `n` bytes of a caller's buffer. -/
def bytes_of (buffer : Nat → Nat) (n : Nat) : List Nat := (List.range n).map buffer

/-- Run a sequence of calls with `fuel` iterations for each; the result is the
concatenation of the bytes the reads delivered, or `none` as soon as a call does not
return the number of bytes it was asked for. -/
def run_ops (fuel : Nat) : List ring_op → channel_core → Option (List Nat)
  | [], _ => some []
  | .write bs :: ops, chan =>
    match internal_write fuel chan (buffer_of bs) (bs.length : Int) with
    | .ret (res, chan1) => if res = (bs.length : Int) then run_ops fuel ops chan1 else none
    | _ => none
  | .read n :: ops, chan =>
    match internal_read fuel chan (fun _ => 0) (n : Int) with
    | .ret (res, chan1, buffer) =>
      if res = (n : Int) then (run_ops fuel ops chan1).map (fun out => bytes_of buffer n ++ out)
      else none
    | _ => none

/-- The empty channel over a ring of `ring_size` bytes, all zero, mapped at address
`mem`, with its control block right behind the ring. -/
def empty_channel (mem ring_size : Nat) : channel_core :=
  { mem := mem, ring_size := ring_size, block := mem + ring_size,
    bytes_consumed := 0, bytes_produced := 0, data := fun _ => 0 }

/-! ## Grant-reference parser -/

/-- The loop `while((buf = strchr(buf, ','))) { ++buf; ++count; }` of `num_grefs`:
every comma found moves past it and adds one to `count`. -/
def count_commas : List Char → Nat → Nat
  | [], count => count
  | c :: cs, count => if c = ',' then count_commas cs (count + 1) else count_commas cs count

/-- The C function `static int num_grefs(const char *buf)`; `none` is the null pointer, a list the
characters before the terminating NUL. -/
def num_grefs (buf : Option (List Char)) : Nat :=
  match buf with
  | none => 0
  | some s => if s.length < 2 then 0 else count_commas s 1

/-- The function `isspace` in the C locale. -/
def isspace (c : Char) : Bool :=
  c = ' ' || c = '\t' || c = '\n' || c = '\x0b' || c = '\x0c' || c = '\r'

/-- One call of `strtok_r(_, ",", &save)` on the text still to be scanned: leading
commas are skipped; the token runs to the next comma or the end; the text kept in
`save` starts after that comma. `none` when no token is left. -/
def strtok_r (s : List Char) : Option (List Char × List Char) :=
  match s.dropWhile (fun c => c = ',') with
  | [] => none
  | t => some (t.takeWhile (fun c => c ≠ ','), (t.dropWhile (fun c => c ≠ ',')).drop 1)

/-- A literal run of a `scanf` format: every character must match the input. -/
def match_lit : List Char → List Char → Option (List Char)
  | [], s => some s
  | _ :: _, [] => none
  | p :: ps, c :: cs => if p = c then match_lit ps cs else none

/-- Value of a character as a digit of the given base (at most 16). -/
def digit_of (base : Nat) (c : Char) : Option Nat :=
  let v :=
    if '0' ≤ c ∧ c ≤ '9' then c.toNat - '0'.toNat
    else if 'a' ≤ c ∧ c ≤ 'f' then c.toNat - 'a'.toNat + 10
    else if 'A' ≤ c ∧ c ≤ 'F' then c.toNat - 'A'.toNat + 10
    else 16
  if v < base then some v else none

/-- The longest run of digits of the given base at the head of the input, as a number;
`none` when there is no digit (`seen` tells whether one was already read). -/
def read_digits (base : Nat) : List Char → Nat → Bool → Option Nat
  | [], acc, seen => if seen then some acc else none
  | c :: cs, acc, seen =>
    match digit_of base c with
    | some d => read_digits base cs (acc * base + d) true
    | none => if seen then some acc else none

/-- The number of a `%i` conversion after its sign: the base follows the prefix
(`0x` or `0X` hexadecimal, `0` octal, decimal otherwise); `none` without a digit. -/
def scan_magnitude (s : List Char) : Option Nat :=
  if s.head? = some '0' ∧ (s.tail.head? = some 'x' ∨ s.tail.head? = some 'X') then
    read_digits 16 (s.drop 2) 0 false
  else if s.head? = some '0' then read_digits 8 s 0 false
  else read_digits 10 s 0 false

/-- The `%i` conversion of `scanf`: white space, an optional sign, then the number.
The value is the one `strtol` gives, limited to the range of `long`. -/
def scan_i (input : List Char) : Option Int :=
  let s := input.dropWhile isspace
  let negative : Bool := s.head? = some '-'
  let s1 := if s.head? = some '-' ∨ s.head? = some '+' then s.tail else s
  (scan_magnitude s1).map (fun (m : Nat) =>
    let v : Int := if negative then -(m : Int) else (m : Int)
    max (-(2 ^ 63)) (min v (2 ^ 63 - 1)))

/-- The call `sscanf(tok, "%*s (GrantRef %i)", grefs+i)`: the value stored in the `unsigned int`
slot, or `none` when the input stops matching before `%i` has converted a number.
What follows the number in the format cannot change the slot. -/
def sscanf_gref (tok : List Char) : Option Nat :=
  -- "%*s": white space, then a non-empty run of characters that are not white space
  match tok.dropWhile isspace with
  | [] => none
  | s =>
    let s1 := s.dropWhile (fun c => !isspace c)
    -- " (GrantRef": white space, then the literal
    match match_lit ['(', 'G', 'r', 'a', 'n', 't', 'R', 'e', 'f'] (s1.dropWhile isspace) with
    | none => none
    | some s2 =>
      -- " %i"
      (scan_i (s2.dropWhile isspace)).map to_uint

/-- The loop `for(i=0; i<len; ++i, pos = NULL)` of `parse_grefs`. The first argument
holds the slots `grefs[i], grefs[i+1], ...` not yet visited, the second the text that
`strtok_r` goes on from. A slot whose token does not match keeps its content; the
loop stops at the first missing token. -/
def parse_grefs_loop : List Nat → List Char → List Nat
  | [], _ => []
  | g :: gs, text =>
    match strtok_r text with
    | none => g :: gs
    | some (tok, save) =>
      (match sscanf_gref tok with
       | some v => v
       | none => g) :: parse_grefs_loop gs save

/-- The C function `static unsigned int *parse_grefs(char *buf, int *grefs_len)`.
`buf` is `none` for a null pointer; `grefs_len` is `none` for a null pointer and
otherwise the value of the caller's variable; `fresh` is what `malloc` gives:
`none` when it fails, otherwise the indeterminate content of the new block.
The result is the returned array (`none` for `NULL`) and the caller's variable
after the call. -/
def parse_grefs (buf : Option (List Char)) (grefs_len : Option Int)
    (fresh : Option (Nat → Nat)) : Option (List Nat) × Option Int :=
  match buf, grefs_len with
  | some (c :: pos), some _ =>
    -- if(!buf || !grefs_len || *pos != '[') return NULL;
    if c ≠ '[' then (none, grefs_len)
    else
      -- ++pos; len = num_grefs(pos); *grefs_len = len;
      let len := num_grefs (some pos)
      if len = 0 then (none, some 0)
      else
        match fresh with
        | none => (none, some (len : Int))
        | some junk => (some (parse_grefs_loop ((List.range len).map junk) pos), some (len : Int))
  | _, _ => (none, grefs_len)

/-- A number as `printf("%d")` writes the `unsigned int` bit pattern `n`: decimal
digits, with a minus sign when the value read as `int` is negative. -/
def fmt_d (n : Nat) : List Char :=
  if n < 2 ^ 31 then Nat.toDigits 10 n else '-' :: Nat.toDigits 10 (2 ^ 32 - n)

/-- One entry `tok (GrantRef N)` of a grant-reference list. -/
def render_entry (e : List Char × Nat) : List Char :=
  e.1 ++ [' ', '(', 'G', 'r', 'a', 'n', 't', 'R', 'e', 'f', ' '] ++ fmt_d e.2 ++ [')']

/-- The entries of a list separated by `, `. -/
def render_entries : List (List Char × Nat) → List Char
  | [] => []
  | [e] => render_entry e
  | e :: es => render_entry e ++ [',', ' '] ++ render_entries es

/-- The text `[tok (GrantRef N), tok (GrantRef N), ...]`. -/
def render_grefs (es : List (List Char × Nat)) : List Char :=
  '[' :: render_entries es ++ [']']

/-- A word of a grant-reference list: not empty, without white space, comma or NUL. -/
def is_word (t : List Char) : Prop :=
  t ≠ [] ∧ ∀ c ∈ t, isspace c = false ∧ c ≠ ',' ∧ c ≠ '\x00'

/-! ## Values and channels used in the statements -/

/-- The big-endian 32-bit unsigned reading `b0*2^24 + b1*2^16 + b2*2^8 + b3` of the four
ring bytes `b_i` at offsets `(bytes_consumed + i) mod ring_size`. -/
def length_word (chan : channel_core) : Nat :=
  load_byte chan ((chan.bytes_consumed + 0) % chan.ring_size) * 2 ^ 24
    + load_byte chan ((chan.bytes_consumed + 1) % chan.ring_size) * 2 ^ 16
    + load_byte chan ((chan.bytes_consumed + 2) % chan.ring_size) * 2 ^ 8
    + load_byte chan ((chan.bytes_consumed + 3) % chan.ring_size)

/-- A ring of 8 bytes, every byte `0xff`, holding four unread bytes. -/
def channel_all_ff : channel_core :=
  { mem := 0, ring_size := 8, block := 8, bytes_consumed := 0, bytes_produced := 4,
    data := fun _ => 255 }

/-- A ring of 8 bytes holding the bytes `0, 1, 2, ...`, with five unread bytes from
offset 2 on. -/
def channel_count : channel_core :=
  { mem := 0, ring_size := 8, block := 8, bytes_consumed := 2, bytes_produced := 7,
    data := fun i => i }

/-- A ring of 8 bytes holding the bytes `0, 1, 2, ...`, whose consumed counter stands
two below the largest `unsigned int`, with `bytes_produced = 5`. -/
def channel_counter_top : channel_core :=
  { mem := 0, ring_size := 8, block := 8, bytes_consumed := 4294967294, bytes_produced := 5,
    data := fun i => i }

/-- The ten decimal digit characters. -/
def dec_chars : List Char := ['0', '1', '2', '3', '4', '5', '6', '7', '8', '9']

/-- What the digits `D` written for `n` do: they are decimal digits, they do not start
with `0` unless `n = 0`, and `read_digits` turns them back into `n`. -/
def writes (n : Nat) (D : List Char) : Prop :=
  D ≠ [] ∧ (∀ c ∈ D, c ∈ dec_chars) ∧ (0 < n → D.head? ≠ some '0') ∧
  (n = 0 → D = ['0']) ∧
  ∀ (acc : Nat) (rest : List Char) (seen : Bool),
    read_digits 10 (D ++ rest) acc seen = read_digits 10 rest (acc * 10 ^ D.length + n) true

/-! ## States used in the statements about the copy loops -/

/-- The counters of a channel are offsets in `[0, ring_size]`. -/
def counters_valid (chan : channel_core) : Prop :=
  chan.bytes_produced ≤ chan.ring_size ∧ chan.bytes_consumed ≤ chan.ring_size

instance (chan : channel_core) : Decidable (counters_valid chan) := by
  unfold counters_valid
  infer_instance

/-- A ring of 8 bytes holding the bytes `0, 1, 2, ...` whose writer has wrapped around the
end: the four unread bytes are at offsets 6, 7, 0 and 1. -/
def channel_wrapped : channel_core :=
  { mem := 0, ring_size := 8, block := 8, bytes_consumed := 6, bytes_produced := 2,
    data := fun i => i }

/-- A ring of 4 bytes whose counters are offsets of the ring but that holds 4 outstanding
bytes: `bytes_produced = ring_size` and `bytes_consumed = 0`. -/
def channel_overfull : channel_core :=
  { mem := 0, ring_size := 4, block := 4, bytes_consumed := 0, bytes_produced := 4,
    data := fun _ => 0 }

/-- A ring of 8 bytes, every byte `0xaa`, holding one unread byte at offset 0. -/
def channel_one_byte : channel_core :=
  { mem := 0, ring_size := 8, block := 8, bytes_consumed := 0, bytes_produced := 1,
    data := fun _ => 170 }

/-- The ring contents after `n` bytes of `buffer`, taken from offset `pos`, are copied in
at `prod` with the boundary split of `internal_write`: in one piece when
`prod + n ≤ ring_size`, otherwise `ring_size - prod` bytes at the tail and the remainder
from offset 0. -/
def ring_put_data (ring_size : Nat) (data : Nat → Nat) (prod : Nat) (buffer : Nat → Nat)
    (pos n : Nat) : Nat → Nat :=
  if prod + n ≤ ring_size then memcpy data prod buffer pos n
  else
    memcpy (memcpy data prod buffer pos (ring_size - prod)) 0 buffer
      (to_ulong ((pos : Int) + ((ring_size - prod : Nat) : Int))) (prod + n - ring_size)

/-- The producer offset after `n` more bytes: `prod + n`, or the remainder length when
the copy went past the end of the ring. -/
def ring_advance (ring_size prod n : Nat) : Nat :=
  if prod + n ≤ ring_size then prod + n else prod + n - ring_size

/-- Offset `o` lies in the free region of the ring: it is one of the
`chan_free_write_space` offsets that follow `prod` along the ring. -/
def in_free_region (ring_size prod cons o : Nat) : Prop :=
  ∃ k, k < chan_free_write_space ring_size prod cons ∧ o = (prod + k) % ring_size

/-- Offset `o` holds an unread byte: it is one of the `chan_free_read_space` offsets from
`cons` up to `prod` along the ring. -/
def is_unread (ring_size prod cons o : Nat) : Prop :=
  ∃ k, k < chan_free_read_space ring_size prod cons ∧ o = (cons + k) % ring_size

/-! ## Rendezvous through the directory -/

/-- The shared directory (xenstore) as explicit state: its nodes, each a path with the
value stored at it. -/
abbrev xenstore := List (String × String)

/-- Whether the store has a node at `path`. -/
def xs_exists (s : xenstore) (path : String) : Bool := s.any (fun e => e.1 = path)

/-- The call `xs_read(xsd, tran, path, &len)`: the value of the node, `none` (a null
pointer) when there is no such node. -/
def xs_read (s : xenstore) (path : String) : Option String :=
  (s.find? (fun e => e.1 = path)).map Prod.snd

/-- The call `xs_directory(xsd, tran, path, &num)`: the paths below the node, `none` (a
null pointer) when there is no such node. -/
def xs_directory (s : xenstore) (path : String) : Option (List String) :=
  if xs_exists s path then
    some ((s.filter (fun e => (path ++ "/").isPrefixOf e.1)).map Prod.fst)
  else none

/-- The call `xs_mkdir(xsd, tran, path)`: the node is made when it is not there. -/
def xs_mkdir (s : xenstore) (path : String) : xenstore :=
  if xs_exists s path then s else s ++ [(path, "")]

/-- The call `xs_write(xsd, tran, path, val, len)`: the node gets the value, and is made
when it is not there. -/
def xs_write (s : xenstore) (path val : String) : xenstore :=
  if xs_exists s path then s.map (fun e => if e.1 = path then (path, val) else e)
  else s ++ [(path, val)]

/-- The call `xs_rm(xsd, tran, path)`: the node and everything below it are removed. -/
def xs_rm (s : xenstore) (path : String) : xenstore :=
  s.filter (fun e => !(decide (e.1 = path) || (path ++ "/").isPrefixOf e.1))

/-- What the publish loop of `bind_memory_and_port` ends with: the early `return 0`, or
the store as the committed transaction leaves it. -/
inductive publish_result where
  | failed
  | published (store : xenstore)
  deriving DecidableEq

/-- The loop `while(!done)` of `bind_memory_and_port` (the publish step). `conflicts` is
the number of times `xs_transaction_end` reports that the transaction was invalidated;
each time the writes of the transaction are dropped and the loop runs again. -/
def bind_publish (store : xenstore) (name : String) (myDom : Nat) : Nat → publish_result
  | 0 =>
    -- halvmdir = xs_directory(xsd, tran, "/halvm", &num_dir_ents); if(!halvmdir) return 0;
    match xs_directory store "/halvm" with
    | none => .failed
    | some _ =>
      -- xs_mkdir(xsd, tran, "/halvm/<name>");
      let s1 := xs_mkdir store ("/halvm/" ++ name)
      -- xs_write(xsd, tran, "/halvm/<name>/starterDomId", "DomId <myDom>", ...);
      let s2 := xs_write s1 ("/halvm/" ++ name ++ "/starterDomId")
        ("DomId " ++ String.mk (fmt_d myDom))
      -- done = xs_transaction_end(xsd, tran, 0);
      .published s2
  | conflicts + 1 =>
    match xs_directory store "/halvm" with
    | none => .failed
    | some _ => bind_publish store name myDom conflicts

/-- The conversion `sscanf(str, "<word> %i", &x)` used for `Port %i` and `DomId %li`: the
literal word, white space, then a number; `none` when the input does not match. -/
def sscanf_word_i (word : List Char) (str : List Char) : Option Int :=
  match match_lit word str with
  | none => none
  | some rest => scan_i (rest.dropWhile isspace)

/-- What `xc_gnttab_map_domain_grant_refs` gives: the address of the mapping, its bytes
by offset, and the two counters that the peer left in the control block at its tail. -/
structure grant_mapping where
  addr : Nat
  data : Nat → Nat
  bytes_consumed : Nat
  bytes_produced : Nat

/-- What the caller of `bind_memory_and_port` gets back: the return value, the store,
`*otherDom`, `*port` and `*chan`. -/
structure bind_result where
  ret : Int
  store : xenstore
  otherDom : Nat
  port : Int
  chan : channel_core

/-- The C function `int bind_memory_and_port(char *name, unsigned long *otherDom,
evtchn_port_t *port, struct channel_core *chan)` on the store `store`. `cb` is
`sizeof(ivc_shared_page)`; `conflicts` is the number of invalidated publish
transactions; `fresh` is what `malloc` gives to `parse_grefs`; `map_refs count dom refs`
is `xc_gnttab_map_domain_grant_refs` (`none` for `NULL`); `bind_port dom echan` is
`xc_evtchn_bind_interdomain`. The last three arguments are `*otherDom`, `*port` and
`*chan` before the call. -/
def bind_memory_and_port (cb : Nat) (store : xenstore) (conflicts : Nat)
    (fresh : Option (Nat → Nat))
    (map_refs : Int → Nat → List Nat → Option grant_mapping)
    (bind_port : Nat → Nat → Int)
    (name : String) (otherDom : Nat) (port : Int) (chan : channel_core) :
    Outcome bind_result :=
  -- while(!myDomStr) { myDomStr = xs_read(xsd, tran, "domid", &len); }
  match xs_read store "domid" with
  | none => .spin
  | some myDomStr =>
    -- sscanf(myDomStr, "%i", &myDom);   (myDom starts as 0)
    let myDom : Nat := ((scan_i myDomStr.data).map to_uint).getD 0
    match bind_publish store name myDom conflicts with
    | .failed => .ret ⟨0, store, otherDom, port, chan⟩
    | .published s2 =>
      -- while(!grefStr) ...; while(!otherDomStr) ...; while(!echanStr) ...
      match xs_read s2 ("/halvm/" ++ name ++ "/grant-refs"),
            xs_read s2 ("/halvm/" ++ name ++ "/accepterDomId"),
            xs_read s2 ("/halvm/" ++ name ++ "/event-channel") with
      | some grefStr, some otherDomStr, some echanStr =>
        -- xs_rm(xsd, 0, "/halvm/<name>");
        let s3 := xs_rm s2 ("/halvm/" ++ name)
        -- grefs = parse_grefs(grefStr, &grefs_len);   (grefs_len starts as 0)
        match parse_grefs (some grefStr.data) (some 0) fresh with
        | (none, _) => .ret ⟨0, s3, otherDom, port, chan⟩
        | (some grefs, grefs_len) =>
          let len : Int := grefs_len.getD 0
          -- sscanf(echanStr, "Port %i", &echan);   (echan starts as 0)
          let echan : Nat :=
            ((sscanf_word_i ['P', 'o', 'r', 't'] echanStr.data).map to_uint).getD 0
          -- sscanf(otherDomStr, "DomId %li", otherDom);
          let otherDom1 : Nat :=
            ((sscanf_word_i ['D', 'o', 'm', 'I', 'd'] otherDomStr.data).map to_ulong).getD
              otherDom
          -- chan->mem = xc_gnttab_map_domain_grant_refs(...); if(chan->mem == NULL) return 0;
          match map_refs len otherDom1 grefs with
          | none => .ret ⟨0, s3, otherDom1, port, { chan with mem := 0 }⟩
          | some m =>
            -- *port = xc_evtchn_bind_interdomain(xce, *otherDom, echan); if(*port < 0) return 0;
            let port1 := bind_port otherDom1 echan
            let chan1 := { chan with mem := m.addr, data := m.data }
            if port1 < 0 then .ret ⟨0, s3, otherDom1, port1, chan1⟩
            else
              -- chan->ring_size = (grefs_len * 4096) - sizeof(ivc_shared_page);
              let ring_size1 := to_uint (to_ulong (to_int (len * 4096) - (cb : Int)))
              -- chan->block = (ivc_shared_page*)(chan->mem + chan->ring_size);
              .ret ⟨1, s3, otherDom1, port1,
                    { chan1 with ring_size := ring_size1, block := m.addr + ring_size1,
                                 bytes_consumed := m.bytes_consumed,
                                 bytes_produced := m.bytes_produced }⟩
      | _, _, _ => .spin

/-- A store in which this guest has its `domid` and the directory `/halvm` exists, with
nothing below it. -/
def store_fresh : xenstore := [("domid", "3"), ("/halvm", "")]

/-- A store in which this guest has its `domid` and there is no directory `/halvm`. -/
def store_no_root : xenstore := [("domid", "3")]

/-! ## Theorems: resize -/

/-- Counterexample to C2. A channel of 1048575 pages (ring of 4294963192 bytes, control
block of 8) shrunk to a total of 100 bytes: the resize succeeds and returns `-4196`, not
the old total size minus `new`, which is 4294963100 and does not fit the `int` that the
function computes and returns. And a page-sized channel shrunk to `new = 4`, less than
the control block: the call does not return at all, it traps. -/
theorem resize_return_wraps :
    ((100 : Nat) ≤ (empty_channel 0 4294963192).ring_size ∧
      (∃ chan1 mem1, resize_channel_core 8 (empty_channel 0 4294963192) 100 0
          = .ret (-4196, chan1, mem1)) ∧
      (-4196 : Int) ≠ (((empty_channel 0 4294963192).ring_size + 8 : Nat) : Int)
          - ((100 : Nat) : Int)) ∧
    ((4 : Nat) ≤ (empty_channel 0 4088).ring_size ∧
      resize_channel_core 8 (empty_channel 0 4088) 4 0 = .fault) := by
  refine ⟨⟨by decide, ⟨_, _, rfl⟩, by decide⟩, by decide, rfl⟩

/-- C2, amended. A resize with `sizeof(control block) ≤ new ≤ ring_size` whose result,
the old total size minus `new`, fits an `int` returns: it leaves both counters of the
repositioned control block at zero and returns the old total size minus `new`. -/
theorem resize_success_resets_and_returns_slack (cb : Nat) (chan : channel_core)
    (new mem_out : Nat) (hcb : cb ≤ new) (hnew : new ≤ chan.ring_size)
    (hslack : chan.ring_size + cb - new < 2 ^ 31) :
    ∃ chan1 mem1,
      resize_channel_core cb chan new mem_out
        = .ret (((chan.ring_size + cb : Nat) : Int) - (new : Int), chan1, mem1) ∧
      chan1.bytes_produced = 0 ∧ chan1.bytes_consumed = 0 := by
  have hn : ¬ new > chan.ring_size := by omega
  have hin : ¬ (chan.mem + resize_ring_size cb new + cb > chan.mem + (chan.ring_size + cb)) := by
    unfold resize_ring_size to_uint to_ulong
    omega
  have hr : to_int (to_uint (to_int ((chan.ring_size + cb : Nat) : Int) - (new : Int)))
      = ((chan.ring_size + cb : Nat) : Int) - (new : Int) := by
    unfold to_int to_uint
    omega
  unfold resize_channel_core
  dsimp only
  rw [if_neg hn, if_neg hin, hr]
  exact ⟨_, _, rfl, rfl, rfl⟩

/-- Witness of C2, amended: a page-sized channel (ring of 4088 bytes, control block of 8)
shrunk to a total of 100 bytes gives back 3996 bytes. -/
theorem resize_success_resets_and_returns_slack_witness :
    ∃ chan1 mem1,
      resize_channel_core 8 (empty_channel 0 4088) 100 0
        = .ret ((((empty_channel 0 4088).ring_size + 8 : Nat) : Int) - ((100 : Nat) : Int),
            chan1, mem1) ∧
      chan1.bytes_produced = 0 ∧ chan1.bytes_consumed = 0 :=
  resize_success_resets_and_returns_slack 8 (empty_channel 0 4088) 100 0
    (by decide) (by decide) (by decide)

/-- C3. A resize to more than the current ring size returns 0 and leaves the channel
(ring size, control-block address, both counters, ring contents) and the caller's
`*mem` exactly as they were. -/
theorem resize_rejected_changes_nothing (cb : Nat) (chan : channel_core)
    (new mem_out : Nat) (hnew : new > chan.ring_size) :
    resize_channel_core cb chan new mem_out = .ret (0, chan, mem_out) := by
  simp [resize_channel_core, hnew]

/-- Witness of C3: asking a ring of 4088 bytes for 5000. -/
theorem resize_rejected_changes_nothing_witness :
    resize_channel_core 8 (empty_channel 0 4088) 5000 77
      = .ret (0, empty_channel 0 4088, 77) :=
  resize_rejected_changes_nothing 8 (empty_channel 0 4088) 5000 77 (by decide)

/-- Counterexample to C4: shrinking a page-sized channel to `new = 100` succeeds and
puts the control block at offset 92, not at offset 100. -/
theorem resize_block_not_at_new :
    (100 : Nat) ≤ (empty_channel 0 4088).ring_size ∧
    ∃ chan1 mem1,
      resize_channel_core 8 (empty_channel 0 4088) 100 0 = .ret (3996, chan1, mem1) ∧
      chan1.block = (empty_channel 0 4088).mem + 92 ∧
      chan1.block ≠ (empty_channel 0 4088).mem + 100 := by
  refine ⟨by decide, _, _, rfl, by decide, by decide⟩

/-- C4, amended. A resize with `sizeof(control block) ≤ new ≤ ring_size` returns, and
after it the new ring has `new - cb` bytes, the control block starts at offset
`new - cb` of the mapping and ends at offset `new`. -/
theorem resize_block_position (cb : Nat) (chan : channel_core) (new mem_out : Nat)
    (hcb : cb ≤ new) (hnew : new ≤ chan.ring_size) (hring : chan.ring_size < 2 ^ 32) :
    ∃ r chan1 mem1,
      resize_channel_core cb chan new mem_out = .ret (r, chan1, mem1) ∧
      chan1.ring_size = new - cb ∧
      chan1.block = chan.mem + (new - cb) ∧
      chan1.block + cb = chan.mem + new ∧
      chan1.mem = chan.mem := by
  have hn : ¬ new > chan.ring_size := by omega
  have h1 : resize_ring_size cb new = new - cb := by
    unfold resize_ring_size to_uint to_ulong
    omega
  have hin : ¬ (chan.mem + resize_ring_size cb new + cb > chan.mem + (chan.ring_size + cb)) := by
    rw [h1]
    omega
  unfold resize_channel_core
  dsimp only
  rw [if_neg hn, if_neg hin, h1]
  exact ⟨_, _, _, rfl, rfl, rfl, by show chan.mem + (new - cb) + cb = chan.mem + new; omega, rfl⟩

/-- Witness of C4, amended. -/
theorem resize_block_position_witness :
    ∃ r chan1 mem1,
      resize_channel_core 8 (empty_channel 0 4088) 100 0 = .ret (r, chan1, mem1) ∧
      chan1.ring_size = 100 - 8 ∧
      chan1.block = (empty_channel 0 4088).mem + (100 - 8) ∧
      chan1.block + 8 = (empty_channel 0 4088).mem + 100 ∧
      chan1.mem = (empty_channel 0 4088).mem :=
  resize_block_position 8 (empty_channel 0 4088) 100 0 (by decide) (by decide) (by decide)

/-! ## Theorems: free space -/

/-- C5. For counters that are offsets of the ring with fewer than `ring_size` bytes
between them (in particular for every pair of offsets below `ring_size`), the free
write space and the free read space add up to `ring_size - 1`. -/
theorem free_space_complement (ring_size prod cons : Nat)
    (hp : prod ≤ ring_size) (hc : cons ≤ ring_size) (hout : prod - cons < ring_size)
    (hr : ring_size < 2 ^ 64) :
    chan_free_write_space ring_size prod cons + chan_free_read_space ring_size prod cons
      = ring_size - 1 := by
  have := hp
  unfold chan_free_read_space chan_free_write_space to_ulong
  split <;> omega

/-- Witness of C5: a wrapped pair in a ring of 16 bytes. -/
theorem free_space_complement_witness :
    chan_free_write_space 16 3 10 + chan_free_read_space 16 3 10 = 16 - 1 :=
  free_space_complement 16 3 10 (by decide) (by decide) (by decide) (by decide)

/-! ## Theorems: framing helpers -/

/-- Byte swap of a little-endian word built from four bytes. -/
theorem ntohl_of_bytes (b0 b1 b2 b3 : Nat) (h0 : b0 < 256) (h1 : b1 < 256) (h2 : b2 < 256)
    (h3 : b3 < 256) :
    ntohl (b0 + b1 * 2 ^ 8 + b2 * 2 ^ 16 + b3 * 2 ^ 24)
      = b0 * 2 ^ 24 + b1 * 2 ^ 16 + b2 * 2 ^ 8 + b3 := by
  unfold ntohl
  simp only []
  omega

theorem load_byte_lt (chan : channel_core) (o : Nat) : load_byte chan o < 256 := by
  unfold load_byte
  omega

/-- Counterexample to C8: on a ring whose next four bytes are all `0xff` the call
returns `-1`, while the big-endian unsigned reading of those bytes is `4294967295`. -/
theorem pull_next_size_negative :
    pull_next_size channel_all_ff = .ret (-1, channel_all_ff) ∧
    length_word channel_all_ff = 4294967295 ∧
    (-1 : Int) ≠ ((length_word channel_all_ff : Nat) : Int) := by
  refine ⟨rfl, by decide, by decide⟩

/-- C8, amended. Whenever `pull_next_size` returns, on a channel whose consumed counter
plus 3 does not overflow its 32 bits, the result is the C `int` with the bit pattern
of the big-endian word: the word itself below `2^31`, the word minus `2^32` from
`2^31` on. -/
theorem pull_next_size_value (chan chan1 : channel_core) (r : Int)
    (hret : pull_next_size chan = .ret (r, chan1))
    (hcons : chan.bytes_consumed + 3 < UINT_MOD) :
    r = if length_word chan < 2 ^ 31 then ((length_word chan : Nat) : Int)
        else ((length_word chan : Nat) : Int) - 2 ^ 32 := by
  by_cases hspin : (chan.bytes_consumed + 4) % UINT_MOD > chan.bytes_produced
  · simp [pull_next_size, hspin] at hret
  by_cases hz : chan.ring_size = 0
  · simp [pull_next_size, hspin, hz] at hret
  simp only [pull_next_size, hspin, hz, if_false, Outcome.ret.injEq, Prod.mk.injEq] at hret
  obtain ⟨hr, -⟩ := hret
  subst hr
  have e0 : (chan.bytes_consumed % UINT_MOD + 0) % UINT_MOD = chan.bytes_consumed + 0 := by
    unfold UINT_MOD at *; omega
  have e1 : (chan.bytes_consumed % UINT_MOD + 1) % UINT_MOD = chan.bytes_consumed + 1 := by
    unfold UINT_MOD at *; omega
  have e2 : (chan.bytes_consumed % UINT_MOD + 2) % UINT_MOD = chan.bytes_consumed + 2 := by
    unfold UINT_MOD at *; omega
  have e3 : (chan.bytes_consumed % UINT_MOD + 3) % UINT_MOD = chan.bytes_consumed + 3 := by
    unfold UINT_MOD at *; omega
  rw [e0, e1, e2, e3, ntohl_of_bytes _ _ _ _ (load_byte_lt _ _) (load_byte_lt _ _)
    (load_byte_lt _ _) (load_byte_lt _ _)]
  unfold length_word
  have h0 := load_byte_lt chan ((chan.bytes_consumed + 0) % chan.ring_size)
  have h1 := load_byte_lt chan ((chan.bytes_consumed + 1) % chan.ring_size)
  have h2 := load_byte_lt chan ((chan.bytes_consumed + 2) % chan.ring_size)
  have h3 := load_byte_lt chan ((chan.bytes_consumed + 3) % chan.ring_size)
  generalize load_byte chan ((chan.bytes_consumed + 0) % chan.ring_size) = b0 at *
  generalize load_byte chan ((chan.bytes_consumed + 1) % chan.ring_size) = b1 at *
  generalize load_byte chan ((chan.bytes_consumed + 2) % chan.ring_size) = b2 at *
  generalize load_byte chan ((chan.bytes_consumed + 3) % chan.ring_size) = b3 at *
  unfold to_int
  split <;> omega

/-- Witness of C8, amended: the ring `0, 1, 2, ...` read from offset 2 gives
`0x02030405`. -/
theorem pull_next_size_value_witness :
    (33752069 : Int) = if length_word channel_count < 2 ^ 31
        then ((length_word channel_count : Nat) : Int)
        else ((length_word channel_count : Nat) : Int) - 2 ^ 32 :=
  pull_next_size_value channel_count channel_count 33752069 rfl (by decide)

/-- A call of `pull_next_size` that returns hands back the channel it was given. -/
theorem pull_next_size_state (chan chan1 : channel_core) (r : Int)
    (hret : pull_next_size chan = .ret (r, chan1)) : chan1 = chan := by
  by_cases hspin : (chan.bytes_consumed + 4) % UINT_MOD > chan.bytes_produced
  · simp [pull_next_size, hspin] at hret
  by_cases hz : chan.ring_size = 0
  · simp [pull_next_size, hspin, hz] at hret
  simp only [pull_next_size, hspin, hz, if_false, Outcome.ret.injEq, Prod.mk.injEq] at hret
  exact hret.2.symm

/-- C9. The function `pull_next_size` returns the channel it was given, unchanged
(counters, ring size and ring contents), so a second call right after the first
returns the same value. -/
theorem pull_next_size_idempotent (chan chan1 : channel_core) (r : Int)
    (hret : pull_next_size chan = .ret (r, chan1)) :
    chan1 = chan ∧ pull_next_size chan1 = .ret (r, chan1) := by
  have hsame := pull_next_size_state chan chan1 r hret
  subst hsame
  exact ⟨rfl, hret⟩

/-- Witness of C9. -/
theorem pull_next_size_idempotent_witness :
    channel_count = channel_count ∧
    pull_next_size channel_count = .ret (33752069, channel_count) :=
  pull_next_size_idempotent channel_count channel_count 33752069 rfl

/-- Counterexample to C10: with `bytes_consumed = 4294967294` and `bytes_produced = 5`
the call of `pull_next_size` returns (the sum `bytes_consumed + 4` wraps to 2, which is
not above 5) and `skip_over_size` then leaves `bytes_consumed = 2`, not 4294967298. -/
theorem skip_after_pull_wraps :
    (∃ r, pull_next_size channel_counter_top = .ret (r, channel_counter_top)) ∧
    (skip_over_size channel_counter_top).bytes_consumed = 2 ∧
    (skip_over_size channel_counter_top).bytes_consumed
      ≠ channel_counter_top.bytes_consumed + 4 := by
  refine ⟨⟨_, rfl⟩, by decide, by decide⟩

/-- C10, amended. After a `pull_next_size` that returned, on a channel whose consumed
counter plus 4 fits the 32 bits of the counter, `skip_over_size` leaves `bytes_consumed`
exactly 4 greater than before the two calls and leaves `bytes_produced`, `ring_size`, the
addresses and the ring contents as they were. -/
theorem skip_after_pull_advances_four (chan chan1 : channel_core) (r : Int)
    (hret : pull_next_size chan = .ret (r, chan1))
    (hcons : chan.bytes_consumed + 4 < UINT_MOD) :
    (skip_over_size chan1).bytes_consumed = chan.bytes_consumed + 4 ∧
    (skip_over_size chan1).bytes_produced = chan.bytes_produced ∧
    (skip_over_size chan1).ring_size = chan.ring_size ∧
    (skip_over_size chan1).data = chan.data ∧
    (skip_over_size chan1).mem = chan.mem ∧
    (skip_over_size chan1).block = chan.block := by
  have hsame := pull_next_size_state chan chan1 r hret
  subst hsame
  refine ⟨?_, rfl, rfl, rfl, rfl, rfl⟩
  simp only [skip_over_size]
  exact Nat.mod_eq_of_lt hcons

/-- Witness of C10, amended. -/
theorem skip_after_pull_advances_four_witness :
    (skip_over_size channel_count).bytes_consumed = channel_count.bytes_consumed + 4 ∧
    (skip_over_size channel_count).bytes_produced = channel_count.bytes_produced ∧
    (skip_over_size channel_count).ring_size = channel_count.ring_size ∧
    (skip_over_size channel_count).data = channel_count.data ∧
    (skip_over_size channel_count).mem = channel_count.mem ∧
    (skip_over_size channel_count).block = channel_count.block :=
  skip_after_pull_advances_four channel_count channel_count 33752069 rfl (by decide)

/-! ## Theorems: round trip -/

/-- C1 fails on the code. On an empty ring of 4 bytes: write `1,2,3`, read 3, write
`4,5` (this write straddles the end of the ring and leaves `bytes_produced = 1` below
`bytes_consumed = 3`); these three calls return and deliver `1,2,3`. The following read
of the 2 outstanding bytes does not return them, whatever the iteration bound:
`readable_space = prod - cons` is `-2`, and the `memcpy` length is `(size_t)-2`. -/
theorem round_trip_fails_after_wrap :
    run_ops 2 [.write [1, 2, 3], .read 3, .write [4, 5]] (empty_channel 0 4)
      = some [1, 2, 3] ∧
    (∀ fuel, run_ops fuel [.write [1, 2, 3], .read 3, .write [4, 5], .read 2]
      (empty_channel 0 4) = none) ∧
    (∀ fuel buffer, internal_read (fuel + 1)
      { empty_channel 0 4 with bytes_consumed := 3, bytes_produced := 1 } buffer 2
        = .fault) := by
  refine ⟨by decide, ?_, ?_⟩
  · intro fuel
    match fuel with
    | 0 => rfl
    | 1 => rfl
    | n + 2 => rfl
  · intro fuel buffer
    rfl

/-! ## Theorems: grant-reference parser -/

/-- Counterexample to C7: for a null `buf` the call returns `NULL` and the caller's
length variable keeps its prior value 7; the same for the empty string and for a
single character other than `[`. -/
theorem parse_grefs_absent_keeps_length :
    parse_grefs none (some 7) none = (none, some 7) ∧
    parse_grefs (some []) (some 7) none = (none, some 7) ∧
    parse_grefs (some ['x']) (some 7) none = (none, some 7) := by
  decide

/-- C7, amended. For a null, empty or single-character input `parse_grefs` returns
`NULL`; the caller's length variable is set to 0 when the input is the string `[` and
is left at its prior value otherwise. -/
theorem parse_grefs_absent (buf : Option (List Char)) (prior : Int)
    (fresh : Option (Nat → Nat))
    (hbuf : buf = none ∨ buf = some [] ∨ ∃ c, buf = some [c]) :
    (parse_grefs buf (some prior) fresh).1 = none ∧
    (parse_grefs buf (some prior) fresh).2
      = some (if buf = some ['['] then 0 else prior) := by
  rcases hbuf with h | h | ⟨c, h⟩
  · subst h; simp [parse_grefs]
  · subst h; simp [parse_grefs]
  · subst h
    by_cases hc : c = '['
    · subst hc; simp [parse_grefs, num_grefs]
    · simp [parse_grefs, hc]

/-- Witness of C7, amended: the single character `[`. -/
theorem parse_grefs_absent_witness :
    (parse_grefs (some ['[']) (some 7) none).1 = none ∧
    (parse_grefs (some ['[']) (some 7) none).2
      = some (if some ['['] = some ['['] then 0 else 7) :=
  parse_grefs_absent (some ['[']) 7 none (Or.inr (Or.inr ⟨'[', rfl⟩))

/-! ## Theorems: grant-reference parser, decimal numbers -/

theorem digitChar_mem (k : Nat) (hk : k < 10) : Nat.digitChar k ∈ dec_chars := by
  interval_cases k <;> decide

theorem digit_of_digitChar (k : Nat) (hk : k < 10) : digit_of 10 (Nat.digitChar k) = some k := by
  interval_cases k <;> decide

theorem digitChar_ne_zero (k : Nat) (hk : k < 10) (h0 : 0 < k) : Nat.digitChar k ≠ '0' := by
  interval_cases k <;> decide

theorem dec_chars_plain : ∀ c ∈ dec_chars,
    isspace c = false ∧ c ≠ ',' ∧ c ≠ '-' ∧ c ≠ '+' ∧ c ≠ 'x' ∧ c ≠ 'X' := by
  decide

theorem toDigitsCore_writes : ∀ (fuel n : Nat) (ds : List Char), n < fuel →
    ∃ D, Nat.toDigitsCore 10 fuel n ds = D ++ ds ∧ writes n D := by
  intro fuel
  induction fuel with
  | zero => intro n ds h; omega
  | succ fuel ih =>
    intro n ds hn
    have hmod : n % 10 < 10 := Nat.mod_lt _ (by decide)
    by_cases hq : n / 10 = 0
    · refine ⟨[Nat.digitChar (n % 10)], ?_, ?_, ?_, ?_, ?_, ?_⟩
      · simp [Nat.toDigitsCore, hq]
      · simp
      · intro c hc
        simp only [List.mem_singleton] at hc
        subst hc
        exact digitChar_mem _ hmod
      · intro hpos
        have : 0 < n % 10 := by omega
        simpa using digitChar_ne_zero _ hmod this
      · intro h0
        subst h0
        rfl
      · intro acc rest seen
        have hn10 : n % 10 = n := by omega
        have hd : digit_of 10 (Nat.digitChar (n % 10)) = some n := by
          rw [digit_of_digitChar _ hmod, hn10]
        simp [read_digits, hd]
    · obtain ⟨D, hD, hne, hdig, hhead, -, hread⟩ := ih (n / 10) (Nat.digitChar (n % 10) :: ds)
        (by omega)
      refine ⟨D ++ [Nat.digitChar (n % 10)], ?_, ?_, ?_, ?_, ?_, ?_⟩
      · simp [Nat.toDigitsCore, hq, hD]
      · simp
      · intro c hc
        rcases List.mem_append.mp hc with h | h
        · exact hdig c h
        · simp only [List.mem_singleton] at h
          subst h
          exact digitChar_mem _ hmod
      · intro _
        have hpos : 0 < n / 10 := Nat.pos_of_ne_zero hq
        cases D with
        | nil => exact absurd rfl hne
        | cons d D1 => simpa using hhead hpos
      · intro h0
        omega
      · intro acc rest seen
        rw [List.append_assoc, hread]
        simp only [List.singleton_append, read_digits, digit_of_digitChar _ hmod,
          List.length_append, List.length_singleton]
        congr 1
        rw [pow_succ]
        have := Nat.div_add_mod n 10
        nlinarith [this]

theorem toDigits_writes (n : Nat) : writes n (Nat.toDigits 10 n) := by
  obtain ⟨D, hD, hw⟩ := toDigitsCore_writes (n + 1) n [] (by omega)
  have : Nat.toDigits 10 n = D := by simpa [Nat.toDigits] using hD
  rw [this]
  exact hw

theorem scan_magnitude_writes (m : Nat) (D : List Char) (hw : writes m D) (tail : List Char) :
    scan_magnitude (D ++ ')' :: tail) = some m := by
  obtain ⟨hne, hdig, hhead, hzero, hread⟩ := hw
  rcases Nat.eq_zero_or_pos m with h0 | hpos
  · rw [hzero h0, h0]
    simp [scan_magnitude, read_digits, digit_of]
  · cases D with
    | nil => exact absurd rfl hne
    | cons d D1 =>
      have hd : d ≠ '0' := by simpa using hhead hpos
      have := hread 0 (')' :: tail) false
      simp only [List.cons_append] at this ⊢
      simp only [scan_magnitude, List.head?_cons, Option.some.injEq, hd, false_and, if_false]
      rw [this]
      simp [read_digits, digit_of]

/-- The conversion `%i` reads back the bit pattern that `%d` wrote. -/
theorem scan_i_fmt_d (n : Nat) (hn : n < 2 ^ 32) (tail : List Char) :
    (scan_i (fmt_d n ++ ')' :: tail)).map to_uint = some n := by
  by_cases hlt : n < 2 ^ 31
  · have hw := toDigits_writes n
    have hm := scan_magnitude_writes n _ hw tail
    obtain ⟨hne, hdig, -, -, -⟩ := hw
    simp only [fmt_d, hlt, if_true] at *
    generalize Nat.toDigits 10 n = D at *
    cases D with
    | nil => exact absurd rfl hne
    | cons d D1 =>
      obtain ⟨hsp, -, hminus, hplus, -, -⟩ := dec_chars_plain d (hdig d (List.mem_cons_self _ _))
      simp only [List.cons_append] at hm ⊢
      simp only [scan_i, List.dropWhile_cons, hsp, List.head?_cons, Option.some.injEq, hminus,
        hplus, or_self, if_false, hm, Option.map_some', decide_False, Bool.false_eq_true]
      simp only [to_uint, Option.some.injEq]
      omega
  · have hw := toDigits_writes (2 ^ 32 - n)
    have hm := scan_magnitude_writes (2 ^ 32 - n) _ hw tail
    simp only [fmt_d, hlt, if_false] at *
    have hsp : isspace '-' = false := by decide
    simp only [List.cons_append, scan_i, List.dropWhile_cons, hsp, List.head?_cons,
      true_or, if_true, List.tail_cons, hm, Option.map_some', decide_True,
      Bool.false_eq_true, if_false]
    simp only [to_uint, Option.some.injEq]
    omega

/-! ## Theorems: grant-reference parser, tokens -/

theorem scan_i_dropWhile (l : List Char) : scan_i (l.dropWhile isspace) = scan_i l := by
  simp [scan_i, List.dropWhile_idempotent]

/-- The call to `sscanf` stores the number of a well-formed entry, whatever white space precedes the
entry and whatever text follows its closing parenthesis. -/
theorem sscanf_gref_entry (ws : List Char) (e : List Char × Nat) (tail : List Char)
    (hws : ∀ c ∈ ws, isspace c = true) (hword : is_word e.1) (hn : e.2 < 2 ^ 32) :
    sscanf_gref (ws ++ render_entry e ++ tail) = some e.2 := by
  obtain ⟨t, n⟩ := e
  obtain ⟨hne, hchars⟩ := hword
  simp only at hne hchars hn ⊢
  cases t with
  | nil => exact absurd rfl hne
  | cons c0 t1 =>
    have hc0 : isspace c0 = false := (hchars c0 (List.mem_cons_self _ _)).1
    have hnsp : ∀ c ∈ c0 :: t1, (fun c => !isspace c) c = true := by
      intro c hc
      simp [(hchars c hc).1]
    have h1 : isspace ' ' = true := by decide
    have h2 : isspace '(' = false := by decide
    have f0 : ws ++ render_entry (c0 :: t1, n) ++ tail
        = ws ++ ((c0 :: t1) ++ (' ' :: '(' :: 'G' :: 'r' :: 'a' :: 'n' :: 't' :: 'R' :: 'e' :: 'f'
            :: ' ' :: (fmt_d n ++ ')' :: tail))) := by
      simp [render_entry]
    have f1 : ∀ X : List Char, (ws ++ ((c0 :: t1) ++ X)).dropWhile isspace = c0 :: (t1 ++ X) := by
      intro X
      rw [List.dropWhile_append_of_pos hws, List.cons_append,
        List.dropWhile_cons_of_neg (by simp [hc0])]
    have f2 : ∀ X : List Char,
        (c0 :: (t1 ++ ' ' :: X)).dropWhile (fun c => !isspace c) = ' ' :: X := by
      intro X
      rw [← List.cons_append, List.dropWhile_append_of_pos hnsp,
        List.dropWhile_cons_of_neg (by simp [h1])]
    have f3 : ∀ X : List Char, (' ' :: '(' :: X).dropWhile isspace = '(' :: X := by
      intro X
      rw [List.dropWhile_cons_of_pos h1, List.dropWhile_cons_of_neg (by simp [h2])]
    have f4 : ∀ X : List Char,
        match_lit ['(', 'G', 'r', 'a', 'n', 't', 'R', 'e', 'f']
          ('(' :: 'G' :: 'r' :: 'a' :: 'n' :: 't' :: 'R' :: 'e' :: 'f' :: X) = some X := by
      intro X
      simp [match_lit]
    have f5 : ∀ F : List Char, scan_i ((' ' :: F).dropWhile isspace) = scan_i F := by
      intro F
      rw [List.dropWhile_cons_of_pos h1, scan_i_dropWhile]
    unfold sscanf_gref
    rw [f0, f1]
    simp only []
    rw [f2, f3, f4]
    simp only []
    rw [f5]
    exact scan_i_fmt_d n hn tail

/-! ## Theorems: grant-reference parser, lists -/

theorem isspace_ne_comma (c : Char) (h : isspace c = true) : c ≠ ',' := by
  intro hc
  subst hc
  exact absurd h (by decide)

theorem fmt_d_no_comma (n : Nat) : ∀ c ∈ fmt_d n, c ≠ ',' := by
  intro c hc
  unfold fmt_d at hc
  split at hc
  · exact (dec_chars_plain c ((toDigits_writes n).2.1 c hc)).2.1
  · rcases List.mem_cons.mp hc with h | h
    · subst h; decide
    · exact (dec_chars_plain c ((toDigits_writes _).2.1 c h)).2.1

theorem render_entry_no_comma (e : List Char × Nat) (hword : is_word e.1) :
    ∀ c ∈ render_entry e, c ≠ ',' := by
  intro c hc
  unfold render_entry at hc
  simp only [List.mem_append, List.mem_cons, List.mem_singleton, List.not_mem_nil,
    or_false] at hc
  rcases hc with ((h | h) | h) | h
  · exact (hword.2 c h).2.1
  · rcases h with h | h | h | h | h | h | h | h | h | h | h <;> subst h <;> decide
  · exact fmt_d_no_comma _ c h
  · subst h; decide

theorem render_entry_ne_nil (e : List Char × Nat) : render_entry e ≠ [] := by
  simp [render_entry]

theorem count_commas_append (a b : List Char) (k : Nat) :
    count_commas (a ++ b) k = count_commas b (count_commas a k) := by
  induction a generalizing k with
  | nil => rfl
  | cons c cs ih =>
    simp only [List.cons_append, count_commas]
    split <;> exact ih _

theorem count_commas_none (a : List Char) (k : Nat) (h : ∀ c ∈ a, c ≠ ',') :
    count_commas a k = k := by
  induction a generalizing k with
  | nil => rfl
  | cons c cs ih =>
    have hc : c ≠ ',' := h c (List.mem_cons_self _ _)
    simp only [count_commas, hc, if_false]
    exact ih k (fun x hx => h x (List.mem_cons_of_mem _ hx))

/-- The function `strtok_r` on text without a comma: the whole text is the token. -/
theorem strtok_r_last (s : List Char) (hne : s ≠ []) (h : ∀ c ∈ s, c ≠ ',') :
    strtok_r s = some (s, []) := by
  cases s with
  | nil => exact absurd rfl hne
  | cons c cs =>
    have hc : c ≠ ',' := h c (List.mem_cons_self _ _)
    have hall : ∀ x ∈ c :: cs, (fun x => decide (x ≠ ',')) x = true := by
      intro x hx
      simpa using h x hx
    have e1 : (c :: cs).dropWhile (fun x => decide (x = ',')) = c :: cs :=
      List.dropWhile_cons_of_neg (by simpa using hc)
    have e2 : (c :: cs).takeWhile (fun x => decide (x ≠ ',')) = c :: cs :=
      List.takeWhile_eq_self_iff.mpr hall
    have e3 : (c :: cs).dropWhile (fun x => decide (x ≠ ',')) = [] :=
      List.dropWhile_eq_nil_iff.mpr hall
    unfold strtok_r
    rw [e1]
    simp only [e2, e3, List.drop_nil]

/-- The function `strtok_r` on text with a comma after a first part free of commas. -/
theorem strtok_r_mid (a b : List Char) (hne : a ≠ []) (h : ∀ c ∈ a, c ≠ ',') :
    strtok_r (a ++ ',' :: b) = some (a, b) := by
  cases a with
  | nil => exact absurd rfl hne
  | cons c cs =>
    have hc : c ≠ ',' := h c (List.mem_cons_self _ _)
    have hall : ∀ x ∈ c :: cs, (fun x => decide (x ≠ ',')) x = true := by
      intro x hx
      simpa using h x hx
    have e1 : (c :: cs ++ ',' :: b).dropWhile (fun x => decide (x = ','))
        = c :: (cs ++ ',' :: b) :=
      List.dropWhile_cons_of_neg (by simpa using hc)
    have e2 : (c :: (cs ++ ',' :: b)).takeWhile (fun x => decide (x ≠ ',')) = c :: cs := by
      rw [← List.cons_append, List.takeWhile_append_of_pos hall,
        List.takeWhile_cons_of_neg (by simp)]
      simp
    have e3 : (c :: (cs ++ ',' :: b)).dropWhile (fun x => decide (x ≠ ',')) = ',' :: b := by
      rw [← List.cons_append, List.dropWhile_append_of_pos hall,
        List.dropWhile_cons_of_neg (by simp)]
    unfold strtok_r
    rw [e1]
    simp only [e2, e3, List.drop_succ_cons, List.drop_zero]

/-- The `strtok_r`/`sscanf` loop over a well-formed list fills one slot per entry, in
order, whatever the slots held and whatever white space precedes the first entry. -/
theorem parse_grefs_loop_entries (es : List (List Char × Nat)) :
    es ≠ [] → (∀ e ∈ es, is_word e.1 ∧ e.2 < 2 ^ 32) →
    ∀ (gs : List Nat) (ws : List Char), gs.length = es.length →
      (∀ c ∈ ws, isspace c = true) →
      parse_grefs_loop gs (ws ++ render_entries es ++ [']']) = es.map Prod.snd := by
  induction es with
  | nil => intro h; exact absurd rfl h
  | cons e rest ih =>
    intro _ hwf gs ws hlen hws
    have hwe := hwf e (List.mem_cons_self _ _)
    have hnc : ∀ c ∈ ws ++ render_entry e, c ≠ ',' := by
      intro c hc
      rcases List.mem_append.mp hc with h | h
      · exact isspace_ne_comma c (hws c h)
      · exact render_entry_no_comma e hwe.1 c h
    have hne : ws ++ render_entry e ≠ [] := by
      simp [render_entry_ne_nil]
    cases gs with
    | nil => simp at hlen
    | cons g gs1 =>
      cases rest with
      | nil =>
        have hlen1 : gs1 = [] := by
          simpa using hlen
        subst hlen1
        have hnc1 : ∀ c ∈ ws ++ render_entry e ++ [']'], c ≠ ',' := by
          intro c hc
          rcases List.mem_append.mp hc with h | h
          · exact hnc c h
          · simp only [List.mem_singleton] at h
            subst h
            decide
        have htok := strtok_r_last (ws ++ render_entry e ++ [']']) (by simp) hnc1
        have hscan := sscanf_gref_entry ws e [']'] hws hwe.1 hwe.2
        simp only [render_entries, parse_grefs_loop, htok, hscan, List.map_cons, List.map_nil]
      | cons e1 rest1 =>
        have htext : ws ++ render_entries (e :: e1 :: rest1) ++ [']']
            = (ws ++ render_entry e) ++ ',' :: ([' '] ++ render_entries (e1 :: rest1) ++ [']']) := by
          simp [render_entries]
        have htok := strtok_r_mid (ws ++ render_entry e)
          ([' '] ++ render_entries (e1 :: rest1) ++ [']']) hne hnc
        have hscan := sscanf_gref_entry ws e [] hws hwe.1 hwe.2
        rw [List.append_nil] at hscan
        have hrec := ih (by simp) (fun x hx => hwf x (List.mem_cons_of_mem _ hx)) gs1 [' ']
          (by simpa using hlen) (by decide)
        rw [htext]
        simp only [parse_grefs_loop, htok, hscan, hrec, List.map_cons]

/-- The comma count of a well-formed list: one comma between neighbours. -/
theorem count_commas_entries (es : List (List Char × Nat)) :
    es ≠ [] → (∀ e ∈ es, is_word e.1 ∧ e.2 < 2 ^ 32) →
    ∀ k, count_commas (render_entries es ++ [']']) k + 1 = k + es.length := by
  induction es with
  | nil => intro h; exact absurd rfl h
  | cons e rest ih =>
    intro _ hwf k
    have hwe := hwf e (List.mem_cons_self _ _)
    have hnc := render_entry_no_comma e hwe.1
    cases rest with
    | nil =>
      simp only [render_entries, count_commas_append, count_commas_none _ _ hnc,
        List.length_singleton]
      rw [count_commas_none]
      intro c hc
      simp only [List.mem_singleton] at hc
      subst hc
      decide
    | cons e1 rest1 =>
      have hrec := ih (by simp) (fun x hx => hwf x (List.mem_cons_of_mem _ hx)) (k + 1)
      have hsp : count_commas [' '] (k + 1) = k + 1 := rfl
      simp only [render_entries, List.append_assoc, count_commas_append,
        count_commas_none _ _ hnc, List.cons_append, List.nil_append, count_commas, if_true,
        List.length_cons] at hrec ⊢
      simp only [show ¬ (' ' = ',') by decide, if_false]
      omega

theorem render_entries_ne_nil (es : List (List Char × Nat)) (h : es ≠ []) :
    render_entries es ≠ [] := by
  cases es with
  | nil => exact absurd rfl h
  | cons e rest =>
    cases rest with
    | nil => simpa [render_entries] using render_entry_ne_nil e
    | cons e1 rest1 => simp [render_entries, render_entry_ne_nil]

/-- C6. For a non-empty list of entries `t_i (GrantRef n_i)`, each `t_i` a word (not
empty, free of white space, commas and NUL) and each `n_i` an unsigned 32-bit number
written as `%d` writes it, `parse_grefs` on the text `[t_1 (GrantRef n_1), ...]` sets
the length to the number of entries and returns the array `n_1, ..., n_k`, whatever
the length variable and the fresh array held before. -/
theorem parse_grefs_well_formed (es : List (List Char × Nat)) (prior : Int)
    (junk : Nat → Nat) (hne : es ≠ [])
    (hwf : ∀ e ∈ es, is_word e.1 ∧ e.2 < 2 ^ 32) :
    parse_grefs (some (render_grefs es)) (some prior) (some junk)
      = (some (es.map Prod.snd), some (es.length : Int)) := by
  have hcount := count_commas_entries es hne hwf 1
  have hlen2 : ¬ (render_entries es ++ [']']).length < 2 := by
    have := List.length_pos.mpr (render_entries_ne_nil es hne)
    simp only [List.length_append, List.length_singleton]
    omega
  have hnum : num_grefs (some (render_entries es ++ [']'])) = es.length := by
    simp only [num_grefs, hlen2, if_false]
    omega
  have hpos : es.length ≠ 0 := by
    intro h
    exact hne (List.length_eq_zero.mp h)
  have hloop := parse_grefs_loop_entries es hne hwf ((List.range es.length).map junk) []
    (by simp) (by simp)
  rw [List.nil_append] at hloop
  simp only [parse_grefs, render_grefs, List.cons_append, ne_eq, not_true_eq_false, if_false,
    hnum, hpos, hloop]

/-- Witness of C6: the text `[A (GrantRef 5), B (GrantRef 12)]` gives `5, 12` and
length 2. -/
theorem parse_grefs_well_formed_witness :
    render_grefs [(['A'], 5), (['B'], 12)] = "[A (GrantRef 5), B (GrantRef 12)]".toList ∧
    parse_grefs (some (render_grefs [(['A'], 5), (['B'], 12)])) (some 7) (some (fun _ => 99))
      = (some ([(['A'], 5), (['B'], 12)].map Prod.snd),
         some (([(['A'], 5), (['B'], 12)] : List (List Char × Nat)).length : Int)) :=
  ⟨by decide,
   parse_grefs_well_formed [(['A'], 5), (['B'], 12)] 7 (fun _ => 99) (by decide)
    (by
      intro e he
      simp only [List.mem_cons, List.mem_singleton, List.not_mem_nil, or_false] at he
      rcases he with h | h <;> subst h <;> refine ⟨⟨by decide, by decide⟩, by decide⟩)⟩

/-! ## Theorems: unfolding of the copy loops -/

/-- One iteration of the loop of `internal_write`. -/
theorem internal_write_loop_succ (buflen fuel : Nat) (chan : channel_core) (buffer : Nat → Nat)
    (pos : Nat) (size res : Int) :
    internal_write_loop buflen (fuel + 1) chan buffer pos size res
      = if size > 0 then
          (internal_write_step buflen chan buffer pos size).and_then (fun r =>
            internal_write_loop buflen fuel r.2 buffer (to_ulong ((pos : Int) + r.1))
              (to_int (size - r.1)) (to_int (res + r.1)))
        else .ret (res, chan) := by
  rw [internal_write_loop]

/-- One iteration of the loop of `internal_read`. -/
theorem internal_read_loop_succ (buflen fuel : Nat) (chan : channel_core) (buffer : Nat → Nat)
    (pos : Nat) (size res : Int) :
    internal_read_loop buflen (fuel + 1) chan buffer pos size res
      = if size > 0 then
          (internal_read_step buflen chan buffer pos size).and_then (fun r =>
            internal_read_loop buflen fuel r.2.1 r.2.2 (to_ulong ((pos : Int) + r.1))
              (to_int (size - r.1)) (to_int (res + r.1)))
        else .ret (res, chan, buffer) := by
  rw [internal_read_loop]

/-! ## Theorems: one pass of the write loop -/

/-- The free write space of counters that are ring offsets with fewer than `ring_size`
bytes outstanding, without wrap-around of the `unsigned long` arithmetic. -/
theorem free_write_space_eq (rs prod cons : Nat) (hp : prod ≤ rs) (hc : cons ≤ rs)
    (hout : prod - cons < rs) (hr : rs < 2 ^ 31) :
    chan_free_write_space rs prod cons
      = if prod ≥ cons then rs - (prod - cons) - 1 else cons - prod - 1 := by
  unfold chan_free_write_space to_ulong
  split <;> omega

/-- The free write space when the ring holds `ring_size` bytes: the subtraction wraps. -/
theorem free_write_space_overfull (rs : Nat) :
    chan_free_write_space rs rs 0 = 2 ^ 64 - 1 := by
  unfold chan_free_write_space to_ulong
  simp only [ge_iff_le, Nat.zero_le, if_true]
  omega

/-- One pass of the write loop that copies `n` bytes, `1 ≤ n ≤` free space: the exact
result. `n` is the amount the code computes as `write_amt`. -/
theorem internal_write_step_copies (chan : channel_core) (buffer : Nat → Nat) (pos n : Nat)
    (size : Int)
    (hp : chan.bytes_produced ≤ chan.ring_size) (hc : chan.bytes_consumed ≤ chan.ring_size)
    (hout : chan.bytes_produced - chan.bytes_consumed < chan.ring_size)
    (hr : chan.ring_size < 2 ^ 31) (h1 : 1 ≤ n)
    (hfit : n ≤ chan_free_write_space chan.ring_size chan.bytes_produced chan.bytes_consumed)
    (hamt : (n : Int) = size ∨ ((n : Int) < size ∧
      n = chan_free_write_space chan.ring_size chan.bytes_produced chan.bytes_consumed)) :
    internal_write_step chan.ring_size chan buffer pos size
      = .ret ((n : Int),
          { chan with
            data := ring_put_data chan.ring_size chan.data chan.bytes_produced buffer pos n,
            bytes_produced := ring_advance chan.ring_size chan.bytes_produced n }) := by
  have hF := free_write_space_eq chan.ring_size chan.bytes_produced chan.bytes_consumed
    hp hc hout hr
  unfold internal_write_step ring_put_data ring_advance
  dsimp only
  generalize chan_free_write_space chan.ring_size chan.bytes_produced chan.bytes_consumed = F
    at *
  have hFlt : F < 2 ^ 31 := by
    rw [hF]; split <;> omega
  have hF0 : to_int (F : Int) = (F : Int) := by unfold to_int; omega
  have hFne : ¬ ((F : Int) = 0) := by omega
  have hw : (if (F : Int) > size then size else (F : Int)) = (n : Int) := by
    split <;> omega
  have hnF : n + chan.bytes_produced ≤ chan.ring_size + chan.bytes_consumed ∨
      chan.bytes_produced < chan.bytes_consumed := by
    rw [hF] at hfit hamt; split at hfit <;> omega
  simp only [hF0, hFne, hw, if_false]
  by_cases hwrap : chan.bytes_produced + n ≤ chan.ring_size
  · have hcmp : ¬ (to_ulong ((chan.bytes_produced : Int) + (n : Int)) > chan.ring_size) := by
      unfold to_ulong; omega
    have hsz : ¬ (n > PTRDIFF_MAX) := by
      unfold PTRDIFF_MAX; omega
    have hu : to_ulong (n : Int) = n := by unfold to_ulong; omega
    have hp2 : to_uint ((chan.bytes_produced : Int) + (n : Int)) = chan.bytes_produced + n := by
      unfold to_uint; omega
    simp only [hcmp, hsz, hu, hp2, hwrap, if_false, if_true]
  · have hcmp : to_ulong ((chan.bytes_produced : Int) + (n : Int)) > chan.ring_size := by
      unfold to_ulong; omega
    have hfirst : to_int ((to_ulong ((chan.ring_size : Int) - (chan.bytes_produced : Int)) : Nat) : Int)
        = ((chan.ring_size - chan.bytes_produced : Nat) : Int) := by
      unfold to_int to_ulong; omega
    have hsecond : to_int ((n : Int) - ((chan.ring_size - chan.bytes_produced : Nat) : Int))
        = ((chan.bytes_produced + n - chan.ring_size : Nat) : Int) := by
      unfold to_int; omega
    have hu1 : to_ulong ((chan.ring_size - chan.bytes_produced : Nat) : Int)
        = chan.ring_size - chan.bytes_produced := by
      unfold to_ulong; omega
    have hu2 : to_ulong ((chan.bytes_produced + n - chan.ring_size : Nat) : Int)
        = chan.bytes_produced + n - chan.ring_size := by
      unfold to_ulong; omega
    have hu3 : to_uint ((chan.bytes_produced + n - chan.ring_size : Nat) : Int)
        = chan.bytes_produced + n - chan.ring_size := by
      unfold to_uint; omega
    have hnf : ¬ (chan.ring_size - chan.bytes_produced > PTRDIFF_MAX ∨
        chan.bytes_produced + n - chan.ring_size > PTRDIFF_MAX) := by
      unfold PTRDIFF_MAX; omega
    simp only [hcmp, hfirst, hsecond, hu1, hu2, hu3, hnf, hwrap, if_false, if_true]

/-- One pass of the write loop on a ring that holds `ring_size` bytes
(`bytes_produced = ring_size`, `bytes_consumed = 0`) traps: the free space wraps to
`ULONG_MAX`, which is `-1` as an `int`, and `memcpy` gets the length `(size_t)-1`. -/
theorem internal_write_step_overfull (chan : channel_core) (buffer : Nat → Nat) (pos : Nat)
    (size : Int) (hprod : chan.bytes_produced = chan.ring_size)
    (hcons : chan.bytes_consumed = 0) (hr : chan.ring_size < 2 ^ 31) (hsize : 0 < size) :
    internal_write_step chan.ring_size chan buffer pos size = .fault := by
  have hF := free_write_space_overfull chan.ring_size
  unfold internal_write_step
  dsimp only
  rw [hprod, hcons, hF]
  have h1 : to_int ((2 ^ 64 - 1 : Nat) : Int) = -1 := by unfold to_int; omega
  have h2 : ¬ ((-1 : Int) = 0) := by omega
  have h3 : ¬ ((-1 : Int) > size) := by omega
  have h5 : to_ulong (-1 : Int) > PTRDIFF_MAX := by
    unfold to_ulong PTRDIFF_MAX; omega
  simp only [h1, h2, h3, if_false]
  by_cases hz : chan.ring_size = 0
  · have h6 : to_int ((to_ulong ((chan.ring_size : Int) - (chan.ring_size : Int)) : Nat) : Int)
        = 0 := by
      unfold to_int to_ulong; omega
    have h7 : to_int ((-1 : Int) - 0) = -1 := by unfold to_int; omega
    simp only [h6, h7, h5, or_true, if_true, ite_self]
  · have h4 : ¬ (to_ulong ((chan.ring_size : Int) + -1) > chan.ring_size) := by
      unfold to_ulong; omega
    simp only [h4, h5, if_false, if_true]

/-- One pass of the write loop with no free space waits. -/
theorem internal_write_step_full (chan : channel_core) (buffer : Nat → Nat) (pos : Nat)
    (size : Int)
    (hfull : chan_free_write_space chan.ring_size chan.bytes_produced chan.bytes_consumed = 0) :
    internal_write_step chan.ring_size chan buffer pos size = .spin := by
  unfold internal_write_step
  dsimp only
  rw [hfull]
  have h1 : to_int ((0 : Nat) : Int) = 0 := by unfold to_int; omega
  simp only [h1, if_true]

/-- Every pass of the write loop that completes, from counters that are ring offsets:
fewer than `ring_size` bytes were outstanding, and the pass copied `n` bytes with
`1 ≤ n ≤ size` and `n ≤` free space, with the result of `internal_write_step_copies`. -/
theorem internal_write_step_ret (chan chan1 : channel_core) (buffer : Nat → Nat) (pos : Nat)
    (size amt : Int)
    (hp : chan.bytes_produced ≤ chan.ring_size) (hc : chan.bytes_consumed ≤ chan.ring_size)
    (hr : chan.ring_size < 2 ^ 31) (hsize : 0 < size)
    (hret : internal_write_step chan.ring_size chan buffer pos size = .ret (amt, chan1)) :
    chan.bytes_produced - chan.bytes_consumed < chan.ring_size ∧
    ∃ n : Nat, 1 ≤ n ∧ (n : Int) ≤ size ∧
      n ≤ chan_free_write_space chan.ring_size chan.bytes_produced chan.bytes_consumed ∧
      amt = (n : Int) ∧
      chan1 = { chan with
        data := ring_put_data chan.ring_size chan.data chan.bytes_produced buffer pos n,
        bytes_produced := ring_advance chan.ring_size chan.bytes_produced n } := by
  by_cases hcorner : chan.bytes_produced = chan.ring_size ∧ chan.bytes_consumed = 0
  · rw [internal_write_step_overfull chan buffer pos size hcorner.1 hcorner.2 hr hsize] at hret
    cases hret
  have hout : chan.bytes_produced - chan.bytes_consumed < chan.ring_size := by omega
  refine ⟨hout, ?_⟩
  by_cases hfull :
      chan_free_write_space chan.ring_size chan.bytes_produced chan.bytes_consumed = 0
  · rw [internal_write_step_full chan buffer pos size hfull] at hret
    cases hret
  have hF := free_write_space_eq chan.ring_size chan.bytes_produced chan.bytes_consumed
    hp hc hout hr
  by_cases hbig :
      ((chan_free_write_space chan.ring_size chan.bytes_produced chan.bytes_consumed : Nat) : Int)
        > size
  · have hn : ((size.toNat : Nat) : Int) = size := Int.toNat_of_nonneg (le_of_lt hsize)
    have hstep := internal_write_step_copies chan buffer pos size.toNat size hp hc hout hr
      (by omega) (by omega) (Or.inl hn)
    rw [hstep] at hret
    simp only [Outcome.ret.injEq, Prod.mk.injEq] at hret
    exact ⟨size.toNat, by omega, by omega, by omega, hret.1.symm, hret.2.symm⟩
  · have hstep := internal_write_step_copies chan buffer pos
      (chan_free_write_space chan.ring_size chan.bytes_produced chan.bytes_consumed) size
      hp hc hout hr (by omega) (le_refl _) (by omega)
    rw [hstep] at hret
    simp only [Outcome.ret.injEq, Prod.mk.injEq] at hret
    exact ⟨_, by omega, by omega, le_refl _, hret.1.symm, hret.2.symm⟩

/-- A remainder by `m` of a number below `2 * m`. -/
theorem mod_lt_two (x m : Nat) (h : x < 2 * m) : x % m = if x < m then x else x - m := by
  split
  · exact Nat.mod_eq_of_lt (by assumption)
  · rw [Nat.mod_eq_sub_mod (by omega)]
    exact Nat.mod_eq_of_lt (by omega)

/-- The producer offset after a copy that fits the free space: still a ring offset, still
fewer than `ring_size` bytes outstanding, and not on the consumer position. -/
theorem ring_advance_ok (rs prod cons n : Nat) (hp : prod ≤ rs) (hc : cons ≤ rs)
    (hout : prod - cons < rs) (hr : rs < 2 ^ 31) (h1 : 1 ≤ n)
    (hfit : n ≤ chan_free_write_space rs prod cons) :
    ring_advance rs prod n ≤ rs ∧
    ring_advance rs prod n - cons < rs ∧
    ring_advance rs prod n % rs ≠ cons % rs := by
  rw [free_write_space_eq rs prod cons hp hc hout hr] at hfit
  unfold ring_advance
  have hm1 : ∀ x, x < 2 * rs → x % rs = if x < rs then x else x - rs := fun x hx =>
    mod_lt_two x rs hx
  split at hfit <;> split
  all_goals
    refine ⟨by omega, by omega, ?_⟩
    rw [hm1 _ (by omega), hm1 cons (by omega)]
    split <;> split <;> omega

/-! ## Theorems: what a copy into the ring changes -/

/-- A byte inside the destination range of `memcpy` comes from the source. -/
theorem memcpy_inside (dst src : Nat → Nat) (doff soff n i : Nat) (h1 : doff ≤ i)
    (h2 : i < doff + n) : memcpy dst doff src soff n i = src (soff + (i - doff)) := by
  unfold memcpy
  rw [if_pos ⟨h1, h2⟩]

/-- A byte outside the destination range of `memcpy` is unchanged. -/
theorem memcpy_outside (dst src : Nat → Nat) (doff soff n i : Nat)
    (h : i < doff ∨ doff + n ≤ i) : memcpy dst doff src soff n i = dst i := by
  unfold memcpy
  rw [if_neg (by omega)]

/-- A copy of `n < ring_size` bytes into the ring changes only the `n` offsets that
follow `prod` along the ring, all of them below `ring_size`. -/
theorem ring_put_data_frame (rs : Nat) (data buffer : Nat → Nat) (prod pos n o : Nat)
    (hp : prod ≤ rs) (hn : n < rs)
    (hchg : ring_put_data rs data prod buffer pos n o ≠ data o) :
    o < rs ∧ ∃ k, k < n ∧ o = (prod + k) % rs := by
  have hm1 : ∀ x, x < 2 * rs → x % rs = if x < rs then x else x - rs := fun x hx =>
    mod_lt_two x rs hx
  unfold ring_put_data at hchg
  by_cases hfit : prod + n ≤ rs
  · rw [if_pos hfit] at hchg
    by_cases hin : prod ≤ o ∧ o < prod + n
    · refine ⟨by omega, o - prod, by omega, ?_⟩
      rw [hm1 _ (by omega)]
      split <;> omega
    · rw [memcpy_outside _ _ _ _ _ _ (by omega)] at hchg
      exact absurd rfl hchg
  · rw [if_neg hfit] at hchg
    by_cases hin2 : o < prod + n - rs
    · refine ⟨by omega, o + rs - prod, by omega, ?_⟩
      rw [hm1 _ (by omega)]
      split <;> omega
    · rw [memcpy_outside _ _ _ _ _ _ (by omega)] at hchg
      by_cases hin1 : prod ≤ o ∧ o < prod + (rs - prod)
      · refine ⟨by omega, o - prod, by omega, ?_⟩
        rw [hm1 _ (by omega)]
        split <;> omega
      · rw [memcpy_outside _ _ _ _ _ _ (by omega)] at hchg
        exact absurd rfl hchg

/-- A copy of `n < ring_size` bytes from the start of `buffer` stores `buffer[i]` at ring
offset `(prod + i) mod ring_size`. -/
theorem ring_put_data_content (rs : Nat) (data buffer : Nat → Nat) (prod n i : Nat)
    (hp : prod ≤ rs) (hn : n < rs) (hi : i < n) (hr : rs < 2 ^ 31) :
    ring_put_data rs data prod buffer 0 n ((prod + i) % rs) = buffer i := by
  have hm := mod_lt_two (prod + i) rs (by omega)
  have hz : to_ulong (((0 : Nat) : Int) + ((rs - prod : Nat) : Int)) = rs - prod := by
    unfold to_ulong; omega
  unfold ring_put_data
  rw [hm, hz]
  by_cases hfit : prod + n ≤ rs
  · rw [if_pos hfit, if_pos (by omega), memcpy_inside _ _ _ _ _ _ (by omega) (by omega)]
    congr 1
    omega
  · rw [if_neg hfit]
    by_cases h1 : prod + i < rs
    · rw [if_pos h1, memcpy_outside _ _ _ _ _ _ (by omega),
        memcpy_inside _ _ _ _ _ _ (by omega) (by omega)]
      congr 1
      omega
    · rw [if_neg h1, memcpy_inside _ _ _ _ _ _ (by omega) (by omega)]
      congr 1
      omega

/-- The free read space of counters that are ring offsets with fewer than `ring_size`
bytes outstanding. -/
theorem free_read_space_eq (rs prod cons : Nat) (hp : prod ≤ rs) (hc : cons ≤ rs)
    (hout : prod - cons < rs) (hr : rs < 2 ^ 31) :
    chan_free_read_space rs prod cons
      = if prod ≥ cons then prod - cons else rs - (cons - prod) := by
  unfold chan_free_read_space
  rw [free_write_space_eq rs prod cons hp hc hout hr]
  unfold to_ulong
  split <;> omega

/-- No offset of the free region holds an unread byte. -/
theorem free_region_not_unread (rs prod cons o : Nat) (hp : prod ≤ rs) (hc : cons ≤ rs)
    (hout : prod - cons < rs) (hr : rs < 2 ^ 31) (hfree : in_free_region rs prod cons o) :
    ¬ is_unread rs prod cons o := by
  rintro ⟨j, hj, hoj⟩
  obtain ⟨k, hk, hok⟩ := hfree
  rw [free_write_space_eq rs prod cons hp hc hout hr] at hk
  rw [free_read_space_eq rs prod cons hp hc hout hr] at hj
  have hm1 := mod_lt_two (prod + k) rs (by split at hk <;> omega)
  have hm2 := mod_lt_two (cons + j) rs (by split at hj <;> omega)
  rw [hm1] at hok
  rw [hm2] at hoj
  split at hk <;> split at hj <;> split at hok <;> split at hoj <;> omega

/-! ## Theorems: `internal_write` -/

/-- Counterexample to C11: in a ring of 4 bytes with `bytes_produced = 4` and
`bytes_consumed = 0` both counters are offsets in `[0, ring_size]` and
`chan_free_write_space` is `ULONG_MAX`, so `size = 1` is within it; yet
`internal_write` of 1 byte traps in its first pass and never returns. -/
theorem internal_write_overfull_faults :
    counters_valid channel_overfull ∧
    1 ≤ chan_free_write_space channel_overfull.ring_size channel_overfull.bytes_produced
      channel_overfull.bytes_consumed ∧
    (∀ fuel buffer, internal_write (fuel + 1) channel_overfull buffer 1 = .fault) ∧
    (∀ fuel buffer r, internal_write fuel channel_overfull buffer 1 ≠ .ret r) := by
  have hfree : 1 ≤ chan_free_write_space 4 4 0 := by
    rw [free_write_space_overfull 4]
    omega
  refine ⟨by decide, hfree, fun _ _ => rfl, ?_⟩
  intro fuel buffer r h
  cases fuel with
  | zero => cases h
  | succ n => cases h

/-- C11, amended. On a ring of fewer than `2^31` bytes whose counters are offsets in
`[0, ring_size]` with fewer than `ring_size` bytes outstanding, and for every `size` with
`1 ≤ size ≤ chan_free_write_space`, `internal_write` returns `size` after one pass of its
loop (two iterations of fuel are enough), has stored `buffer[i]` at ring offset
`(prod + i) mod ring_size` for all `i < size`, and has set `bytes_produced` to
`prod + size` when that is at most `ring_size` and to `prod + size - ring_size`
otherwise; `bytes_consumed` and `ring_size` are as before. -/
theorem internal_write_fits (chan : channel_core) (buffer : Nat → Nat) (size fuel : Nat)
    (hv : counters_valid chan)
    (hout : chan.bytes_produced - chan.bytes_consumed < chan.ring_size)
    (hr : chan.ring_size < 2 ^ 31) (h1 : 1 ≤ size)
    (hfit : size ≤ chan_free_write_space chan.ring_size chan.bytes_produced chan.bytes_consumed) :
    ∃ chan1, internal_write (fuel + 2) chan buffer (size : Int) = .ret ((size : Int), chan1) ∧
      (∀ i, i < size →
        chan1.data ((chan.bytes_produced + i) % chan.ring_size) = buffer i) ∧
      chan1.bytes_produced
        = (if chan.bytes_produced + size ≤ chan.ring_size then chan.bytes_produced + size
           else chan.bytes_produced + size - chan.ring_size) ∧
      chan1.bytes_consumed = chan.bytes_consumed ∧
      chan1.ring_size = chan.ring_size := by
  obtain ⟨hp, hc⟩ := hv
  have hstep := internal_write_step_copies chan buffer 0 size (size : Int) hp hc hout hr h1 hfit
    (Or.inl rfl)
  have hF := free_write_space_eq chan.ring_size chan.bytes_produced chan.bytes_consumed
    hp hc hout hr
  have hlt : size < chan.ring_size := by
    rw [hF] at hfit; split at hfit <;> omega
  have hpos : (size : Int) > 0 := by omega
  have hrem : to_int ((size : Int) - (size : Int)) = 0 := by unfold to_int; omega
  have hres : to_int ((0 : Int) + (size : Int)) = (size : Int) := by unfold to_int; omega
  have hnot : ¬ ((0 : Int) > 0) := by omega
  refine ⟨{ chan with
      data := ring_put_data chan.ring_size chan.data chan.bytes_produced buffer 0 size,
      bytes_produced := ring_advance chan.ring_size chan.bytes_produced size }, ?_, ?_, rfl,
    rfl, rfl⟩
  · unfold internal_write
    rw [show fuel + 2 = (fuel + 1) + 1 from rfl, internal_write_loop_succ, if_pos hpos, hstep]
    dsimp only [Outcome.and_then]
    rw [internal_write_loop_succ, hrem, if_neg hnot, hres]
  · intro i hi
    exact ring_put_data_content chan.ring_size chan.data buffer chan.bytes_produced size i hp hlt
      hi hr

/-- Witness of C11, amended: two bytes written at offset 7 of a ring of 8 bytes, one at
the tail and one at offset 0. -/
theorem internal_write_fits_witness :
    ∃ chan1, internal_write (0 + 2) channel_count (buffer_of [9, 10]) ((2 : Nat) : Int)
        = .ret (((2 : Nat) : Int), chan1) ∧
      (∀ i, i < 2 →
        chan1.data ((channel_count.bytes_produced + i) % channel_count.ring_size)
          = buffer_of [9, 10] i) ∧
      chan1.bytes_produced
        = (if channel_count.bytes_produced + 2 ≤ channel_count.ring_size
           then channel_count.bytes_produced + 2
           else channel_count.bytes_produced + 2 - channel_count.ring_size) ∧
      chan1.bytes_consumed = channel_count.bytes_consumed ∧
      chan1.ring_size = channel_count.ring_size :=
  internal_write_fits channel_count (buffer_of [9, 10]) 2 0 (by decide) (by decide) (by decide)
    (by decide) (by decide)

/-! ## Theorems: defects of the read path and of the shrink operation -/

/-- C12 fails on the code. In the wrapped state `bytes_produced = 2 < bytes_consumed = 6`
of a ring of 8 bytes, 4 bytes are readable by `chan_free_read_space`, yet a read of 3
bytes never returns, whatever the iteration bound and the destination: the first pass
through the loop calls `memcpy` with the length `(size_t)-4`. -/
theorem internal_read_wrapped_faults :
    counters_valid channel_wrapped ∧
    chan_free_read_space channel_wrapped.ring_size channel_wrapped.bytes_produced
      channel_wrapped.bytes_consumed = 4 ∧
    (∀ fuel buffer, internal_read (fuel + 1) channel_wrapped buffer 3 = .fault) ∧
    (∀ fuel buffer r, internal_read fuel channel_wrapped buffer 3 ≠ .ret r) := by
  refine ⟨by decide, by decide, fun _ _ => rfl, ?_⟩
  intro fuel buffer r h
  cases fuel with
  | zero => cases h
  | succ n => cases h

/-- C15 fails on the code. In the wrapped state `bytes_produced = 2 < bytes_consumed = 6`
of a ring of 8 bytes, 4 bytes are available to read, yet the spin condition
`bytes_consumed + 4 > bytes_produced` holds and `pull_next_size` waits. -/
theorem pull_next_size_waits_when_wrapped :
    counters_valid channel_wrapped ∧
    chan_free_read_space channel_wrapped.ring_size channel_wrapped.bytes_produced
      channel_wrapped.bytes_consumed ≥ 4 ∧
    pull_next_size channel_wrapped = .spin := by
  refine ⟨by decide, by decide, rfl⟩

/-- Counterexample to C16. A channel of 1048575 pages (ring of 4294963192 bytes, control
block of 8) shrunk to a total of 100 bytes: the resize succeeds with `*mem` at offset 100
and the return value `r = -4196`, so the region from `*mem` of `r` bytes is not the
trailing bytes of the mapping: it does not end where the mapping ends, at offset
4294963200. -/
theorem resize_freed_region_not_trailing :
    (100 : Nat) ≤ (empty_channel 0 4294963192).ring_size ∧
    ∃ r chan1 mem1,
      resize_channel_core 8 (empty_channel 0 4294963192) 100 0 = .ret (r, chan1, mem1) ∧
      r < 0 ∧
      (mem1 : Int) + r
        ≠ (((empty_channel 0 4294963192).mem + ((empty_channel 0 4294963192).ring_size + 8)
            : Nat) : Int) := by
  refine ⟨by decide, _, _, _, rfl, by decide, by decide⟩

/-- C16, amended. A resize with `sizeof(control block) ≤ new ≤ ring_size` whose result,
the old total size minus `new`, fits an `int` returns some `r ≥ 0` with
`*mem = chan->mem + new`; the region `[*mem, *mem + r)` ends where the original mapping
ends, at `chan->mem + ring_size + sizeof(control block)`, it starts at or behind the end
of the new control block, which lies behind the new ring data, and so no address of the
region is an address of the new ring data or of the new control block. -/
theorem resize_freed_region_disjoint (cb : Nat) (chan : channel_core) (new mem_out : Nat)
    (hcb : cb ≤ new) (hnew : new ≤ chan.ring_size)
    (hslack : chan.ring_size + cb - new < 2 ^ 31) :
    ∃ r chan1 mem1,
      resize_channel_core cb chan new mem_out = .ret (r, chan1, mem1) ∧
      0 ≤ r ∧ mem1 = chan.mem + new ∧
      (mem1 : Int) + r = ((chan.mem + (chan.ring_size + cb) : Nat) : Int) ∧
      chan1.mem = chan.mem ∧
      chan1.mem + chan1.ring_size ≤ chan1.block ∧
      chan1.block + cb ≤ mem1 ∧
      (∀ a : Nat, mem1 ≤ a → (a : Int) < (mem1 : Int) + r →
        ¬ (chan1.mem ≤ a ∧ a < chan1.mem + chan1.ring_size) ∧
        ¬ (chan1.block ≤ a ∧ a < chan1.block + cb)) := by
  have hn : ¬ new > chan.ring_size := by omega
  have hr : to_int (to_uint (to_int ((chan.ring_size + cb : Nat) : Int) - (new : Int)))
      = ((chan.ring_size + cb : Nat) : Int) - (new : Int) := by
    unfold to_int to_uint
    omega
  have h1 : resize_ring_size cb new ≤ new - cb := by
    unfold resize_ring_size to_uint to_ulong
    omega
  have hin : ¬ (chan.mem + resize_ring_size cb new + cb > chan.mem + (chan.ring_size + cb)) := by
    omega
  unfold resize_channel_core
  dsimp only
  rw [if_neg hn, if_neg hin, hr]
  refine ⟨_, _, _, rfl, ?_, rfl, ?_, rfl, ?_, ?_, ?_⟩
  · omega
  · push_cast
    omega
  · exact Nat.le_refl _
  · show chan.mem + resize_ring_size cb new + cb ≤ chan.mem + new
    omega
  · intro a ha _
    constructor
    · show ¬ (chan.mem ≤ a ∧ a < chan.mem + resize_ring_size cb new)
      omega
    · show ¬ (chan.mem + resize_ring_size cb new ≤ a
        ∧ a < chan.mem + resize_ring_size cb new + cb)
      omega

/-- Witness of C16, amended: a page-sized channel (ring of 4088 bytes, control block of
8) shrunk to a total of 100 bytes hands back the 3996 bytes from offset 100 on. -/
theorem resize_freed_region_disjoint_witness :
    ∃ r chan1 mem1,
      resize_channel_core 8 (empty_channel 0 4088) 100 0 = .ret (r, chan1, mem1) ∧
      0 ≤ r ∧ mem1 = (empty_channel 0 4088).mem + 100 ∧
      (mem1 : Int) + r
        = (((empty_channel 0 4088).mem + ((empty_channel 0 4088).ring_size + 8) : Nat) : Int) ∧
      chan1.mem = (empty_channel 0 4088).mem ∧
      chan1.mem + chan1.ring_size ≤ chan1.block ∧
      chan1.block + 8 ≤ mem1 ∧
      (∀ a : Nat, mem1 ≤ a → (a : Int) < (mem1 : Int) + r →
        ¬ (chan1.mem ≤ a ∧ a < chan1.mem + chan1.ring_size) ∧
        ¬ (chan1.block ≤ a ∧ a < chan1.block + 8)) :=
  resize_freed_region_disjoint 8 (empty_channel 0 4088) 100 0
    (by decide) (by decide) (by decide)

/-- C19 fails on the code. Reading the one unread byte `0xaa` into a destination filled
with `0x55` returns 1 and leaves the destination as `aa 00 00 00 00 00 00 00 55 ...`:
the store `*(unsigned long*)buffer = 0` has cleared the bytes at indices 1 to 7. -/
theorem internal_read_clears_eight_bytes :
    chan_free_read_space channel_one_byte.ring_size channel_one_byte.bytes_produced
      channel_one_byte.bytes_consumed = 1 ∧
    ∃ chan1 buffer1,
      internal_read 2 channel_one_byte (fun _ => 85) 1 = .ret (1, chan1, buffer1) ∧
      bytes_of buffer1 10 = [170, 0, 0, 0, 0, 0, 0, 0, 85, 85] := by
  refine ⟨by decide, _, _, rfl, by decide⟩

/-- C20 fails on the code. Shrinking a page-sized channel (ring of 4088 bytes, control
block of 8) to `new = 4` passes the guard; `new - sizeof(ivc_shared_page)` wraps, so the
ring size that the function stores is 4294967292, more than the old 4088, and the
control block is placed 4294967292 bytes past the start of a mapping of 4096 bytes. The
store through that block traps. -/
theorem resize_below_block_size_grows :
    (4 : Nat) ≤ (empty_channel 0 4088).ring_size ∧
    resize_ring_size 8 4 = 4294967292 ∧
    ¬ (resize_ring_size 8 4 ≤ (empty_channel 0 4088).ring_size) ∧
    ¬ ((empty_channel 0 4088).mem + resize_ring_size 8 4 + 8
        ≤ (empty_channel 0 4088).mem + ((empty_channel 0 4088).ring_size + 8)) ∧
    resize_channel_core 8 (empty_channel 0 4088) 4 0 = .fault := by
  refine ⟨by decide, by decide, by decide, by decide, rfl⟩

/-- What every completed pass of the write loop does to the counters, from counters that
are ring offsets: fewer than `ring_size` bytes were and are outstanding, the counters
are still ring offsets, the producer is not on the consumer position, and between 1
byte and the free space was copied. -/
theorem internal_write_step_counters (chan chan1 : channel_core) (buffer : Nat → Nat)
    (pos : Nat) (size amt : Int) (hv : counters_valid chan) (hr : chan.ring_size < 2 ^ 31)
    (hsize : 0 < size)
    (hret : internal_write_step chan.ring_size chan buffer pos size = .ret (amt, chan1)) :
    chan.bytes_produced - chan.bytes_consumed < chan.ring_size ∧
    1 ≤ amt ∧ amt ≤ size ∧
    amt ≤ (chan_free_write_space chan.ring_size chan.bytes_produced chan.bytes_consumed : Nat) ∧
    chan1.ring_size = chan.ring_size ∧ chan1.bytes_consumed = chan.bytes_consumed ∧
    counters_valid chan1 ∧
    chan1.bytes_produced - chan1.bytes_consumed < chan1.ring_size ∧
    chan1.bytes_produced % chan1.ring_size ≠ chan1.bytes_consumed % chan1.ring_size := by
  obtain ⟨hp, hc⟩ := hv
  obtain ⟨hout, n, hn1, hns, hnF, hamt, hchan⟩ :=
    internal_write_step_ret chan chan1 buffer pos size amt hp hc hr hsize hret
  obtain ⟨ha1, ha2, ha3⟩ := ring_advance_ok chan.ring_size chan.bytes_produced
    chan.bytes_consumed n hp hc hout hr hn1 hnF
  subst hchan
  subst hamt
  exact ⟨hout, by omega, hns, by omega, rfl, rfl, ⟨ha1, hc⟩, ha2, ha3⟩

/-- The loop of `internal_write`, whenever it returns: the ring size and the consumer
counter are as before, the counters are still ring offsets, and either no pass was made
(the channel is as before) or fewer than `ring_size` bytes are outstanding and the
producer is not on the consumer position. -/
theorem internal_write_loop_counters (buflen : Nat) (hr : buflen < 2 ^ 31) :
    ∀ (fuel : Nat) (chan chan1 : channel_core) (buffer : Nat → Nat) (pos : Nat)
      (size res r : Int),
      chan.ring_size = buflen → counters_valid chan →
      internal_write_loop buflen fuel chan buffer pos size res = .ret (r, chan1) →
      chan1.ring_size = buflen ∧ chan1.bytes_consumed = chan.bytes_consumed ∧
      counters_valid chan1 ∧
      (chan1 = chan ∨
        (chan1.bytes_produced - chan1.bytes_consumed < chan1.ring_size ∧
         chan1.bytes_produced % chan1.ring_size ≠ chan1.bytes_consumed % chan1.ring_size)) := by
  intro fuel
  induction fuel with
  | zero =>
    intro chan chan1 buffer pos size res r _ _ h
    cases h
  | succ n ih =>
    intro chan chan1 buffer pos size res r hrs hv h
    rw [internal_write_loop_succ] at h
    by_cases hsize : size > 0
    · rw [if_pos hsize] at h
      subst hrs
      cases hstep : internal_write_step chan.ring_size chan buffer pos size with
      | ret a =>
        obtain ⟨amt, chan2⟩ := a
        rw [hstep] at h
        dsimp only [Outcome.and_then] at h
        obtain ⟨-, -, -, -, hrs2, hc2, hv2, hout2, hne2⟩ :=
          internal_write_step_counters chan chan2 buffer pos size amt hv hr hsize hstep
        obtain ⟨h1, h2, h3, h4⟩ := ih chan2 chan1 buffer _ _ _ r hrs2 hv2 h
        refine ⟨h1, by rw [h2, hc2], h3, Or.inr ?_⟩
        rcases h4 with h4 | h4
        · subst h4
          exact ⟨hout2, hne2⟩
        · exact h4
      | spin => rw [hstep] at h; cases h
      | fault => rw [hstep] at h; cases h
      | fuel => rw [hstep] at h; cases h
    · rw [if_neg hsize] at h
      simp only [Outcome.ret.injEq, Prod.mk.injEq] at h
      obtain ⟨-, hch⟩ := h
      subst hch
      exact ⟨hrs, rfl, hv, Or.inl rfl⟩

/-! ## Theorems: one byte always unused -/

/-- C14. From counters that are offsets in `[0, ring_size]` with fewer than `ring_size`
bytes outstanding (ring below `2^31` bytes): a pass of the write loop waits when the free
write space is 0 and otherwise completes, copying between 1 and `chan_free_write_space`
bytes; afterwards the producer position differs from the consumer position modulo
`ring_size` and fewer than `ring_size` bytes are outstanding. The same holds after
every call of `internal_write` that returns, unless it made no pass at all. -/
theorem one_byte_always_unused (chan : channel_core) (buffer : Nat → Nat)
    (hv : counters_valid chan)
    (hout : chan.bytes_produced - chan.bytes_consumed < chan.ring_size)
    (hr : chan.ring_size < 2 ^ 31) :
    (∀ (pos : Nat) (size : Int), 0 < size →
      (chan_free_write_space chan.ring_size chan.bytes_produced chan.bytes_consumed = 0 →
        internal_write_step chan.ring_size chan buffer pos size = .spin) ∧
      (chan_free_write_space chan.ring_size chan.bytes_produced chan.bytes_consumed ≠ 0 →
        ∃ amt chan1, internal_write_step chan.ring_size chan buffer pos size = .ret (amt, chan1) ∧
          1 ≤ amt ∧
          amt ≤ (chan_free_write_space chan.ring_size chan.bytes_produced
            chan.bytes_consumed : Nat) ∧
          chan1.bytes_produced % chan1.ring_size ≠ chan1.bytes_consumed % chan1.ring_size ∧
          chan1.bytes_produced - chan1.bytes_consumed < chan1.ring_size ∧
          counters_valid chan1)) ∧
    (∀ (fuel : Nat) (size res : Int) (chan1 : channel_core),
      internal_write fuel chan buffer size = .ret (res, chan1) →
      counters_valid chan1 ∧
      chan1.bytes_produced - chan1.bytes_consumed < chan1.ring_size ∧
      (chan1 = chan ∨
        chan1.bytes_produced % chan1.ring_size ≠ chan1.bytes_consumed % chan1.ring_size)) := by
  constructor
  · intro pos size hsize
    refine ⟨fun hfull => internal_write_step_full chan buffer pos size hfull, fun hfree => ?_⟩
    have hF := free_write_space_eq chan.ring_size chan.bytes_produced chan.bytes_consumed
      hv.1 hv.2 hout hr
    have hex : ∃ n : Nat, 1 ≤ n ∧
        n ≤ chan_free_write_space chan.ring_size chan.bytes_produced chan.bytes_consumed ∧
        ((n : Int) = size ∨ ((n : Int) < size ∧
          n = chan_free_write_space chan.ring_size chan.bytes_produced chan.bytes_consumed)) := by
      by_cases hbig : ((chan_free_write_space chan.ring_size chan.bytes_produced
          chan.bytes_consumed : Nat) : Int) > size
      · exact ⟨size.toNat, by omega, by omega, Or.inl (by omega)⟩
      · exact ⟨_, by omega, le_refl _, by omega⟩
    obtain ⟨n, hn1, hnF, hamt⟩ := hex
    have hstep := internal_write_step_copies chan buffer pos n size hv.1 hv.2 hout hr hn1 hnF hamt
    obtain ⟨-, h1, -, h3, -, -, h6, h7, h8⟩ :=
      internal_write_step_counters chan _ buffer pos size n hv hr hsize hstep
    exact ⟨_, _, hstep, h1, h3, h8, h7, h6⟩
  · intro fuel size res chan1 h
    obtain ⟨h1, h2, h3, h4⟩ := internal_write_loop_counters chan.ring_size hr fuel chan chan1
      buffer 0 size 0 res rfl hv h
    refine ⟨h3, ?_, ?_⟩
    · rcases h4 with h4 | h4
      · subst h4; exact hout
      · exact h4.1
    · rcases h4 with h4 | h4
      · exact Or.inl h4
      · exact Or.inr h4.2

/-- Witness of C14: the ring of 8 bytes with `bytes_consumed = 2`, `bytes_produced = 7`. -/
theorem one_byte_always_unused_witness :
    (∀ (pos : Nat) (size : Int), 0 < size →
      (chan_free_write_space channel_count.ring_size channel_count.bytes_produced
          channel_count.bytes_consumed = 0 →
        internal_write_step channel_count.ring_size channel_count (buffer_of [9, 10]) pos size
          = .spin) ∧
      (chan_free_write_space channel_count.ring_size channel_count.bytes_produced
          channel_count.bytes_consumed ≠ 0 →
        ∃ amt chan1,
          internal_write_step channel_count.ring_size channel_count (buffer_of [9, 10]) pos size
            = .ret (amt, chan1) ∧
          1 ≤ amt ∧
          amt ≤ (chan_free_write_space channel_count.ring_size channel_count.bytes_produced
            channel_count.bytes_consumed : Nat) ∧
          chan1.bytes_produced % chan1.ring_size ≠ chan1.bytes_consumed % chan1.ring_size ∧
          chan1.bytes_produced - chan1.bytes_consumed < chan1.ring_size ∧
          counters_valid chan1)) ∧
    (∀ (fuel : Nat) (size res : Int) (chan1 : channel_core),
      internal_write fuel channel_count (buffer_of [9, 10]) size = .ret (res, chan1) →
      counters_valid chan1 ∧
      chan1.bytes_produced - chan1.bytes_consumed < chan1.ring_size ∧
      (chan1 = channel_count ∨
        chan1.bytes_produced % chan1.ring_size ≠ chan1.bytes_consumed % chan1.ring_size)) :=
  one_byte_always_unused channel_count (buffer_of [9, 10]) (by decide) (by decide) (by decide)

/-! ## Theorems: frame of a write -/

/-- C17. From counters that are offsets in `[0, ring_size]` (ring below `2^31` bytes),
every pass of the write loop that completes leaves `bytes_consumed`, `ring_size` and the
two addresses as they were; a ring byte it changed lies in the free region; every unread
byte and every byte at an offset `≥ ring_size` is unchanged. -/
theorem internal_write_step_frame (chan chan1 : channel_core) (buffer : Nat → Nat)
    (pos : Nat) (size amt : Int) (hv : counters_valid chan) (hr : chan.ring_size < 2 ^ 31)
    (hsize : 0 < size)
    (hret : internal_write_step chan.ring_size chan buffer pos size = .ret (amt, chan1)) :
    chan1.bytes_consumed = chan.bytes_consumed ∧ chan1.ring_size = chan.ring_size ∧
    chan1.mem = chan.mem ∧ chan1.block = chan.block ∧
    (∀ o, chan1.data o ≠ chan.data o →
      in_free_region chan.ring_size chan.bytes_produced chan.bytes_consumed o) ∧
    (∀ o, is_unread chan.ring_size chan.bytes_produced chan.bytes_consumed o →
      chan1.data o = chan.data o) ∧
    (∀ o, chan.ring_size ≤ o → chan1.data o = chan.data o) := by
  obtain ⟨hp, hc⟩ := hv
  obtain ⟨hout, n, hn1, hns, hnF, hamt, hchan⟩ :=
    internal_write_step_ret chan chan1 buffer pos size amt hp hc hr hsize hret
  have hF := free_write_space_eq chan.ring_size chan.bytes_produced chan.bytes_consumed
    hp hc hout hr
  have hlt : n < chan.ring_size := by
    rw [hF] at hnF; split at hnF <;> omega
  subst hchan
  have hfr : ∀ o,
      ring_put_data chan.ring_size chan.data chan.bytes_produced buffer pos n o ≠ chan.data o →
      o < chan.ring_size ∧
      in_free_region chan.ring_size chan.bytes_produced chan.bytes_consumed o := by
    intro o ho
    obtain ⟨h1, k, hk, hko⟩ := ring_put_data_frame chan.ring_size chan.data buffer
      chan.bytes_produced pos n o hp hlt ho
    exact ⟨h1, k, by omega, hko⟩
  refine ⟨rfl, rfl, rfl, rfl, fun o ho => (hfr o ho).2, ?_, ?_⟩
  · intro o hun
    by_contra hne
    exact free_region_not_unread chan.ring_size chan.bytes_produced chan.bytes_consumed o hp hc
      hout hr (hfr o hne).2 hun
  · intro o hge
    by_contra hne
    have := (hfr o hne).1
    omega

/-- Witness of C17: a pass that writes two bytes at offset 7 of the ring of 8 bytes with
`bytes_consumed = 2`. -/
theorem internal_write_step_frame_witness :
    ∃ chan1, internal_write_step channel_count.ring_size channel_count (buffer_of [9, 10]) 0 2
        = .ret (2, chan1) ∧
      chan1.bytes_consumed = channel_count.bytes_consumed ∧
      chan1.ring_size = channel_count.ring_size ∧
      chan1.mem = channel_count.mem ∧ chan1.block = channel_count.block ∧
      (∀ o, chan1.data o ≠ channel_count.data o →
        in_free_region channel_count.ring_size channel_count.bytes_produced
          channel_count.bytes_consumed o) ∧
      (∀ o, is_unread channel_count.ring_size channel_count.bytes_produced
          channel_count.bytes_consumed o →
        chan1.data o = channel_count.data o) ∧
      (∀ o, channel_count.ring_size ≤ o → chan1.data o = channel_count.data o) :=
  ⟨_, rfl, internal_write_step_frame channel_count _ (buffer_of [9, 10]) 0 2 2 (by decide)
    (by decide) (by decide) rfl⟩

/-! ## Theorems: counters stay ring offsets -/

/-- Every pass of the read loop that completes, from counters that are ring offsets: the
producer was ahead of the consumer (`bytes_consumed < bytes_produced`), and the pass
copied `n` bytes, `1 ≤ n ≤ size` and `n ≤ bytes_produced - bytes_consumed`, after
clearing 8 bytes of the destination, and advanced `bytes_consumed` by `n`. -/
theorem internal_read_step_ret (chan chan1 : channel_core) (buffer buffer1 : Nat → Nat)
    (pos : Nat) (size amt : Int)
    (hp : chan.bytes_produced ≤ chan.ring_size) (hc : chan.bytes_consumed ≤ chan.ring_size)
    (hr : chan.ring_size < 2 ^ 31) (hsize : 0 < size)
    (hret : internal_read_step chan.ring_size chan buffer pos size = .ret (amt, chan1, buffer1)) :
    chan.bytes_consumed < chan.bytes_produced ∧
    ∃ n : Nat, 1 ≤ n ∧ (n : Int) ≤ size ∧ n ≤ chan.bytes_produced - chan.bytes_consumed ∧
      amt = (n : Int) ∧
      chan1 = { chan with bytes_consumed := chan.bytes_consumed + n } ∧
      buffer1 = memcpy (memcpy buffer pos (fun _ => 0) 0 8) pos chan.data
        chan.bytes_consumed n := by
  unfold internal_read_step at hret
  dsimp only at hret
  by_cases heq : chan.bytes_produced = chan.bytes_consumed
  · rw [if_pos heq] at hret
    cases hret
  rw [if_neg heq] at hret
  by_cases hlt : chan.bytes_produced < chan.bytes_consumed
  · -- the writer has wrapped: the amount is negative and `memcpy` traps
    have hrd : to_int ((to_ulong ((chan.bytes_produced : Int) - (chan.bytes_consumed : Int)) : Nat) : Int)
        = (chan.bytes_produced : Int) - (chan.bytes_consumed : Int) := by
      unfold to_int to_ulong; omega
    have hamt : ¬ ((chan.bytes_produced : Int) - (chan.bytes_consumed : Int) > size) := by omega
    have hcmp : ¬ (to_ulong ((chan.bytes_consumed : Int)
        + ((chan.bytes_produced : Int) - (chan.bytes_consumed : Int))) > chan.ring_size) := by
      unfold to_ulong; omega
    have hbig : to_ulong ((chan.bytes_produced : Int) - (chan.bytes_consumed : Int))
        > PTRDIFF_MAX := by
      unfold to_ulong PTRDIFF_MAX; omega
    rw [hrd, if_neg hamt, if_neg hcmp, if_pos hbig] at hret
    cases hret
  · have hgt : chan.bytes_consumed < chan.bytes_produced := by omega
    refine ⟨hgt, ?_⟩
    have hrd : to_int ((to_ulong ((chan.bytes_produced : Int) - (chan.bytes_consumed : Int)) : Nat) : Int)
        = ((chan.bytes_produced - chan.bytes_consumed : Nat) : Int) := by
      unfold to_int to_ulong; omega
    rw [hrd] at hret
    have hex : ∃ n : Nat, 1 ≤ n ∧ (n : Int) ≤ size ∧
        n ≤ chan.bytes_produced - chan.bytes_consumed ∧
        (if ((chan.bytes_produced - chan.bytes_consumed : Nat) : Int) > size then size
          else ((chan.bytes_produced - chan.bytes_consumed : Nat) : Int)) = (n : Int) := by
      by_cases hbig : ((chan.bytes_produced - chan.bytes_consumed : Nat) : Int) > size
      · exact ⟨size.toNat, by omega, by omega, by omega, by rw [if_pos hbig]; omega⟩
      · exact ⟨_, by omega, by omega, le_refl _, by rw [if_neg hbig]⟩
    obtain ⟨n, hn1, hns, hnr, hn⟩ := hex
    rw [hn] at hret
    have hcmp : ¬ (to_ulong ((chan.bytes_consumed : Int) + (n : Int)) > chan.ring_size) := by
      unfold to_ulong; omega
    have hu : to_ulong (n : Int) = n := by unfold to_ulong; omega
    have hsz : ¬ (n > PTRDIFF_MAX) := by unfold PTRDIFF_MAX; omega
    have hcn : to_uint ((chan.bytes_consumed : Int) + (n : Int)) = chan.bytes_consumed + n := by
      unfold to_uint; omega
    rw [if_neg hcmp, hu, if_neg hsz, hcn] at hret
    simp only [Outcome.ret.injEq, Prod.mk.injEq] at hret
    exact ⟨n, hn1, hns, hnr, hret.1.symm, hret.2.1.symm, hret.2.2.symm⟩

/-- The loop of `internal_read`, whenever it returns, from counters that are ring
offsets: the ring size and the producer counter are as before and the counters are
still ring offsets. -/
theorem internal_read_loop_counters (buflen : Nat) (hr : buflen < 2 ^ 31) :
    ∀ (fuel : Nat) (chan chan1 : channel_core) (buffer buffer1 : Nat → Nat) (pos : Nat)
      (size res r : Int),
      chan.ring_size = buflen → counters_valid chan →
      internal_read_loop buflen fuel chan buffer pos size res = .ret (r, chan1, buffer1) →
      chan1.ring_size = buflen ∧ chan1.bytes_produced = chan.bytes_produced ∧
      counters_valid chan1 := by
  intro fuel
  induction fuel with
  | zero =>
    intro chan chan1 buffer buffer1 pos size res r _ _ h
    cases h
  | succ n ih =>
    intro chan chan1 buffer buffer1 pos size res r hrs hv h
    rw [internal_read_loop_succ] at h
    by_cases hsize : size > 0
    · rw [if_pos hsize] at h
      subst hrs
      cases hstep : internal_read_step chan.ring_size chan buffer pos size with
      | ret a =>
        obtain ⟨amt, chan2, buffer2⟩ := a
        rw [hstep] at h
        dsimp only [Outcome.and_then] at h
        obtain ⟨hgt, k, hk1, hks, hkr, -, hchan, -⟩ :=
          internal_read_step_ret chan chan2 buffer buffer2 pos size amt hv.1 hv.2 hr hsize hstep
        have hv2 : counters_valid chan2 := by
          subst hchan
          exact ⟨hv.1, by show chan.bytes_consumed + k ≤ chan.ring_size; have := hv.1; omega⟩
        have hrs2 : chan2.ring_size = chan.ring_size := by subst hchan; rfl
        have hp2 : chan2.bytes_produced = chan.bytes_produced := by subst hchan; rfl
        obtain ⟨h1, h2, h3⟩ := ih chan2 chan1 buffer2 buffer1 _ _ _ r hrs2 hv2 h
        exact ⟨h1, by rw [h2, hp2], h3⟩
      | spin => rw [hstep] at h; cases h
      | fault => rw [hstep] at h; cases h
      | fuel => rw [hstep] at h; cases h
    · rw [if_neg hsize] at h
      simp only [Outcome.ret.injEq, Prod.mk.injEq] at h
      obtain ⟨-, hch, -⟩ := h
      subst hch
      exact ⟨hrs, rfl, hv⟩

/-- C18. From every channel whose counters are offsets in `[0, ring_size]` (ring below
`2^31` bytes), the counters are again offsets in `[0, ring_size]` after every
`internal_write` and every `internal_read` that returns, after `skip_over_size` following
a `pull_next_size` that returned, and after every `resize_channel_core` that returns. -/
theorem counters_stay_valid (cb : Nat) (chan : channel_core) (hv : counters_valid chan)
    (hr : chan.ring_size < 2 ^ 31) :
    (∀ (fuel : Nat) (buffer : Nat → Nat) (size res : Int) (chan1 : channel_core),
      internal_write fuel chan buffer size = .ret (res, chan1) → counters_valid chan1) ∧
    (∀ (fuel : Nat) (buffer buffer1 : Nat → Nat) (size res : Int) (chan1 : channel_core),
      internal_read fuel chan buffer size = .ret (res, chan1, buffer1) →
      counters_valid chan1) ∧
    (∀ (r : Int) (chan1 : channel_core),
      pull_next_size chan = .ret (r, chan1) → counters_valid (skip_over_size chan1)) ∧
    (∀ (new mem_out : Nat) (r : Int) (chan1 : channel_core) (mem1 : Nat),
      resize_channel_core cb chan new mem_out = .ret (r, chan1, mem1) →
      counters_valid chan1) := by
  refine ⟨?_, ?_, ?_, ?_⟩
  · intro fuel buffer size res chan1 h
    exact (internal_write_loop_counters chan.ring_size hr fuel chan chan1 buffer 0 size 0 res
      rfl hv h).2.2.1
  · intro fuel buffer buffer1 size res chan1 h
    exact (internal_read_loop_counters chan.ring_size hr fuel chan chan1 buffer buffer1 0 size 0
      res rfl hv h).2.2
  · intro r chan1 h
    have hsame := pull_next_size_state chan chan1 r h
    subst hsame
    by_cases hspin : (chan1.bytes_consumed + 4) % UINT_MOD > chan1.bytes_produced
    · simp [pull_next_size, hspin] at h
    · have := hv.1
      exact ⟨hv.1, by show (chan1.bytes_consumed + 4) % UINT_MOD ≤ chan1.ring_size; omega⟩
  · intro new mem_out r chan1 mem1 h
    unfold resize_channel_core at h
    dsimp only at h
    by_cases hn : new > chan.ring_size
    · rw [if_pos hn] at h
      have h1 := (Prod.mk.inj (Prod.mk.inj (Outcome.ret.inj h)).2).1
      rw [← h1]
      exact hv
    · rw [if_neg hn] at h
      by_cases hin : chan.mem + resize_ring_size cb new + cb > chan.mem + (chan.ring_size + cb)
      · rw [if_pos hin] at h
        exact Outcome.noConfusion h
      · rw [if_neg hin] at h
        have h1 := (Prod.mk.inj (Prod.mk.inj (Outcome.ret.inj h)).2).1
        rw [← h1]
        exact ⟨Nat.zero_le _, Nat.zero_le _⟩

/-- Witness of C18: the ring of 8 bytes with `bytes_consumed = 2`, `bytes_produced = 7`;
a write of two bytes returns from it and leaves `bytes_produced = 1`. -/
theorem counters_stay_valid_witness :
    (∃ chan1, internal_write 2 channel_count (buffer_of [9, 10]) 2 = .ret (2, chan1) ∧
      chan1.bytes_produced = 1 ∧ counters_valid chan1) ∧
    (∀ (fuel : Nat) (buffer buffer1 : Nat → Nat) (size res : Int) (chan1 : channel_core),
      internal_read fuel channel_count buffer size = .ret (res, chan1, buffer1) →
      counters_valid chan1) ∧
    (∀ (r : Int) (chan1 : channel_core),
      pull_next_size channel_count = .ret (r, chan1) → counters_valid (skip_over_size chan1)) ∧
    (∀ (new mem_out : Nat) (r : Int) (chan1 : channel_core) (mem1 : Nat),
      resize_channel_core 8 channel_count new mem_out = .ret (r, chan1, mem1) →
      counters_valid chan1) :=
  ⟨⟨_, rfl, rfl,
      (counters_stay_valid 8 channel_count (by decide) (by decide)).1 2 (buffer_of [9, 10]) 2 2 _
        rfl⟩,
    (counters_stay_valid 8 channel_count (by decide) (by decide)).2⟩

/-! ## Theorems: the publish step of the rendezvous -/

/-- Counterexample to C13: in a store where `/halvm` exists and `/halvm/test` does not,
the publish step for the channel `test` does not fail: it makes `/halvm/test` and writes
`DomId 3` to `/halvm/test/starterDomId`, and `bind_memory_and_port` goes on to wait for
the keys of the peer. -/
theorem bind_creates_absent_subtree :
    xs_exists store_fresh "/halvm/test" = false ∧
    (∃ s, bind_publish store_fresh "test" 3 0 = .published s ∧
      xs_exists s "/halvm/test" = true ∧
      xs_read s "/halvm/test/starterDomId" = some "DomId 3") ∧
    bind_memory_and_port 8 store_fresh 0 none (fun _ _ _ => none) (fun _ _ => 0) "test" 0 0
      (empty_channel 0 0) = .spin := by
  refine ⟨by decide, ⟨_, rfl, by decide, by decide⟩, rfl⟩

/-- The publish step fails at once, whatever the number of invalidated transactions, when
the directory `/halvm` does not exist. -/
theorem bind_publish_without_root (store : xenstore) (name : String) (myDom conflicts : Nat)
    (hroot : xs_directory store "/halvm" = none) :
    bind_publish store name myDom conflicts = .failed := by
  cases conflicts with
  | zero => simp only [bind_publish, hroot]
  | succ n => simp only [bind_publish, hroot]

/-- C13, amended. For every channel name, when the directory `/halvm` does not exist as
the publish step runs (this guest's `domid` being readable), `bind_memory_and_port`
returns 0 at once, whatever the number of invalidated transactions, and leaves the store,
`*otherDom`, `*port` and `*chan` as they were: no subtree is made and no `starterDomId`
is written. -/
theorem bind_fails_without_root (cb : Nat) (store : xenstore) (conflicts : Nat)
    (fresh : Option (Nat → Nat)) (map_refs : Int → Nat → List Nat → Option grant_mapping)
    (bind_port : Nat → Nat → Int) (name : String) (otherDom : Nat) (port : Int)
    (chan : channel_core) (myDomStr : String)
    (hdom : xs_read store "domid" = some myDomStr)
    (hroot : xs_directory store "/halvm" = none) :
    bind_memory_and_port cb store conflicts fresh map_refs bind_port name otherDom port chan
      = .ret ⟨0, store, otherDom, port, chan⟩ := by
  unfold bind_memory_and_port
  rw [hdom]
  dsimp only
  rw [bind_publish_without_root store name _ conflicts hroot]

/-- Witness of C13, amended: a store with `domid` and without `/halvm`. -/
theorem bind_fails_without_root_witness :
    bind_memory_and_port 8 store_no_root 2 none (fun _ _ _ => none) (fun _ _ => 0) "test" 0 0
      (empty_channel 0 0)
      = .ret ⟨0, store_no_root, 0, 0, empty_channel 0 0⟩ :=
  bind_fails_without_root 8 store_no_root 2 none (fun _ _ _ => none) (fun _ _ => 0) "test" 0 0
    (empty_channel 0 0) "3" (by decide) (by decide)

/-- A node exists after `xs_mkdir` on its path. -/
theorem xs_exists_mkdir (s : xenstore) (p : String) : xs_exists (xs_mkdir s p) p = true := by
  unfold xs_mkdir
  by_cases h : xs_exists s p = true
  · rw [if_pos h]; exact h
  · rw [if_neg h]
    simp [xs_exists]

/-- A node that exists still exists after `xs_write` on any path. -/
theorem xs_exists_write (s : xenstore) (k v p : String) (h : xs_exists s p = true) :
    xs_exists (xs_write s k v) p = true := by
  unfold xs_write
  by_cases hk : xs_exists s k = true
  · rw [if_pos hk]
    simp only [xs_exists, List.any_eq_true, decide_eq_true_eq] at h ⊢
    obtain ⟨e, he, hep⟩ := h
    by_cases hek : e.1 = k
    · exact ⟨(k, v), List.mem_map.mpr ⟨e, he, by simp [hek]⟩, by rw [← hep, hek]⟩
    · exact ⟨e, List.mem_map.mpr ⟨e, he, by simp [hek]⟩, hep⟩
  · rw [if_neg hk]
    simp only [xs_exists, List.any_append, Bool.or_eq_true] at h ⊢
    exact Or.inl h

/-- The value read back after `xs_write` is the value written. -/
theorem xs_read_write (s : xenstore) (k v : String) : xs_read (xs_write s k v) k = some v := by
  unfold xs_write
  by_cases hk : xs_exists s k = true
  · rw [if_pos hk]
    unfold xs_read
    induction s with
    | nil => simp [xs_exists] at hk
    | cons e rest ih =>
      by_cases hek : e.1 = k
      · simp [hek]
      · have hrest : xs_exists rest k = true := by
          simpa [xs_exists, hek] using hk
        simpa [hek] using ih hrest
  · rw [if_neg hk]
    unfold xs_read
    have hnone : s.find? (fun e => decide (e.1 = k)) = none := by
      simp only [xs_exists, List.any_eq_true, decide_eq_true_eq, not_exists, not_and] at hk
      simp only [List.find?_eq_none, decide_eq_true_eq]
      exact hk
    simp [List.find?_append, hnone]

/-- The publish step under an existing `/halvm`: it completes, the subtree of the channel
exists afterwards and `starterDomId` holds this guest's identity. -/
theorem bind_publish_creates (store : xenstore) (name : String) (myDom conflicts : Nat)
    (hroot : xs_directory store "/halvm" ≠ none) :
    ∃ s, bind_publish store name myDom conflicts = .published s ∧
      xs_exists s ("/halvm/" ++ name) = true ∧
      xs_read s ("/halvm/" ++ name ++ "/starterDomId")
        = some ("DomId " ++ String.mk (fmt_d myDom)) := by
  obtain ⟨l, hl⟩ := Option.ne_none_iff_exists'.mp hroot
  induction conflicts with
  | zero =>
    refine ⟨xs_write (xs_mkdir store ("/halvm/" ++ name))
      ("/halvm/" ++ name ++ "/starterDomId") ("DomId " ++ String.mk (fmt_d myDom)), ?_, ?_, ?_⟩
    · simp only [bind_publish, hl]
    · exact xs_exists_write _ _ _ _ (xs_exists_mkdir _ _)
    · exact xs_read_write _ _ _
  | succ n ih =>
    obtain ⟨s, hs, h1, h2⟩ := ih
    exact ⟨s, by simp only [bind_publish, hl, hs], h1, h2⟩

end IVC
